import Mathlib

/-!
# Verification of the klisp reader and evaluator

A shallow embedding of the klisp crate (a small Lisp dialect: a nom-based
reader producing S-expressions, and a tree-walking evaluator over a chain of
lexical environments), together with proofs about it.

Source files embedded:
* src/parser/ast.rs — Atom, Sexpr
* src/whitespace.rs — ws
* src/parser.rs — parse_string, parse_number, parse_symbol, parse_atom,
  parse_quoted, parse_list, parse_sexpr, parse
* src/evaluator/value.rs — Value, EvalError, Environment
* src/evaluator.rs — eval and the special forms
* src/evaluator/builtins.rs — the primitive library

Conventions of the embedding:
* Parsers operate on List Char (the Rust code works on &str slices, always
  moving forward, so the list of remaining characters is a faithful image).
* A nom parser returns Ok((rest, value)) or a recoverable error; none of the
  source parsers uses cut, so the irrecoverable nom failure never arises.
  The recursive parsers carry a fuel argument so that they are structurally
  recursive and executable; running out of fuel is the third result state
  PRes.out, and the sufficiency theorem below shows a fuel of
  4 * length + 4 never runs out, recovering the totality of the Rust code.
* The evaluator can genuinely diverge (unbounded recursion through lambda
  application), so it is fuel-based as well: the result
  Option (Except EvalError (Value × Environment)) is none exactly when the
  fuel is exhausted.
* Rust HashMap bindings are modelled as association lists where insertion
  prepends and lookup takes the first hit: observably equal to insert/get.
* Rc sharing is invisible to the program (there is no interior mutability in
  the source), so values and environments are plain inductive values.
-/

namespace Klisp

/-! ## Syntax model (parser/ast.rs) -/

/-- Atom from parser/ast.rs: the smallest indivisible unit. -/
inductive Atom where
  | nil : Atom
  | symbol (name : String) : Atom
  | number (n : Int) : Atom
  | string (s : String) : Atom

/-- Sexpr from parser/ast.rs: atom, proper list, or dotted list. -/
inductive Sexpr where
  | atom (a : Atom) : Sexpr
  | list (elems : List Sexpr) : Sexpr
  | dottedList (elems : List Sexpr) (tail : Sexpr) : Sexpr

mutual

/-- Invariant checked for claim C6: every list node carries a nonempty
element sequence, recursively. -/
def noEmptyList : Sexpr → Bool
  | .atom _ => true
  | .list es => !es.isEmpty && noEmptyListAll es
  | .dottedList es t => noEmptyListAll es && noEmptyList t

/-- Conjunction of noEmptyList over a list of subtrees. -/
def noEmptyListAll : List Sexpr → Bool
  | [] => true
  | e :: es => noEmptyList e && noEmptyListAll es

end

/-! ## Character classes

nom's multispace1 matches exactly space, tab, carriage return and line feed;
alpha1 matches ASCII letters; digit1 matches ASCII digits. -/

/-- Characters multispace1 accepts: space, tab, carriage return, newline. -/
def isSpace (c : Char) : Bool :=
  c = ' ' || c = '\t' || c = '\r' || c = '\n'

/-- Characters a line-comment body may hold, from is_not with newline and
carriage return excluded. -/
def isCommentChar (c : Char) : Bool :=
  c ≠ '\n' && c ≠ '\r'

/-- First character of a symbol: ASCII letter or an operator character. -/
def isSymbolStart (c : Char) : Bool :=
  c.isAlpha || c = '-' || c = '+' || c = '*' || c = '/' ||
    c = '>' || c = '<' || c = '=' || c = '?'

/-- Continuation character of a symbol: letter, digit, dash, question mark,
exclamation mark. -/
def isSymbolCont (c : Char) : Bool :=
  c.isAlpha || c.isDigit || c = '-' || c = '?' || c = '!'

/-! ## Whitespace and comment skipper (whitespace.rs)

The source is recognize(many0(alt((pair(tag ";", is_not "\n\r"),
multispace1)))); many0 never fails, so ws always succeeds and we model it by
the remainder it leaves.  Each iteration first tries the comment branch —
a semicolon followed by at least one character that is neither newline nor
carriage return (is_not fails on an empty match), consuming the maximal run
of such characters — and otherwise multispace1 consumes whitespace.  To keep
the function structurally recursive we walk one character at a time with a
flag that records whether we are inside a comment body; this consumes
exactly the same prefix, because a maximal whitespace run is consumed by
iterated single steps and a comment body by iterated comment-mode steps. -/

/-- Character-stepping core of ws; the flag is true inside a comment body. -/
def wsGo : Bool → List Char → List Char
  | false, [] => []
  | false, c :: rest =>
    if isSpace c then wsGo false rest
    else if c = ';' then
      match rest with
      | [] => c :: rest
      | b :: rest2 => if isCommentChar b then wsGo true rest2 else c :: rest
    else c :: rest
  | true, [] => []
  | true, c :: rest =>
    if isCommentChar c then wsGo true rest
    else wsGo false rest

/-- Remainder after skipping whitespace and comments, modelling ws from
whitespace.rs. -/
def ws (input : List Char) : List Char :=
  wsGo false input

theorem ws_nil : ws [] = [] := by simp [ws, wsGo]

/-- Chunk equation: a whitespace character is consumed. -/
theorem ws_space {c : Char} (rest : List Char) (hsp : isSpace c = true) :
    ws (c :: rest) = ws rest := by
  rw [ws, wsGo.eq_def]
  simp [hsp, ws]

/-- Relation of comment mode to plain mode: a comment body runs to the next
newline or carriage return, exclusive. -/
theorem wsGo_true_eq (x : List Char) :
    wsGo true x = ws (x.dropWhile isCommentChar) := by
  induction x with
  | nil => simp [wsGo, ws]
  | cons c r ih =>
    by_cases hcc : isCommentChar c
    · rw [wsGo.eq_def]
      simp only [hcc, if_true, ih, List.dropWhile_cons, if_pos hcc]
    · have hsp : isSpace c = true := by
        simp only [isCommentChar, Bool.and_eq_true, decide_eq_true_eq, not_and_or,
          not_not] at hcc
        rcases hcc with h | h <;> simp [isSpace, h]
      rw [wsGo.eq_def]
      simp only [hcc, Bool.false_eq_true, if_false]
      rw [List.dropWhile_cons, if_neg (by simp [hcc]), ws_space r hsp]
      rfl

/-- Chunk equation: a semicolon followed by at least one character that is
neither newline nor carriage return consumes the comment body. -/
theorem ws_comment {rest : List Char}
    (h : rest.takeWhile isCommentChar ≠ []) :
    ws (';' :: rest) = ws (rest.dropWhile isCommentChar) := by
  match rest with
  | [] => simp at h
  | b :: rest2 =>
    by_cases hb : isCommentChar b
    · rw [ws, wsGo.eq_def]
      simp only [List.dropWhile_cons, hb, if_true]
      rw [wsGo_true_eq]
      simp [isSpace]
    · rw [List.takeWhile_cons, if_neg (by simp [hb])] at h
      simp at h

/-- Stop equation: ws consumes nothing when the head is not whitespace and
is not a semicolon opening a nonempty comment. -/
theorem ws_stop {c : Char} {rest : List Char} (h1 : ¬isSpace c = true)
    (h2 : c = ';' → rest.takeWhile isCommentChar = []) :
    ws (c :: rest) = c :: rest := by
  by_cases hc : c = ';'
  · subst hc
    have h3 := h2 rfl
    match rest with
    | [] => rw [ws, wsGo.eq_def]; simp [h1]
    | b :: rest2 =>
      rw [List.takeWhile_cons] at h3
      by_cases hb : isCommentChar b
      · simp [hb] at h3
      · rw [ws, wsGo.eq_def]
        simp [h1, hb]
  · rw [ws, wsGo.eq_def]
    simp [h1, hc]

theorem wsGo_suffix : ∀ (m : Bool) (input : List Char), (wsGo m input).IsSuffix input := by
  intro m input
  induction m, input using wsGo.induct with
  | case1 => simp [wsGo]
  | case2 c rest hsp ih =>
    rw [wsGo.eq_def]
    simp only [hsp, if_true]
    exact ih.trans (List.suffix_cons c rest)
  | case3 h => rw [wsGo.eq_def]; simp [isSpace]
  | case4 b rest2 hb h ih =>
    rw [wsGo.eq_def]
    simp only [hb, if_true, if_neg h, Char.reduceEq, reduceIte, isSpace]
    exact ih.trans ((List.suffix_cons b rest2).trans (List.suffix_cons ';' (b :: rest2)))
  | case5 b rest2 hb h =>
    rw [wsGo.eq_def]
    simp [hb, h, isSpace]
  | case6 c rest hsp hc =>
    rw [wsGo.eq_def]
    simp [hsp, hc]
  | case7 => simp [wsGo]
  | case8 c rest hcc ih =>
    rw [wsGo.eq_def]
    simp only [hcc, if_true]
    exact ih.trans (List.suffix_cons c rest)
  | case9 c rest hcc ih =>
    rw [wsGo.eq_def]
    simp only [hcc, Bool.false_eq_true, if_false]
    exact ih.trans (List.suffix_cons c rest)

theorem ws_suffix (input : List Char) : (ws input).IsSuffix input :=
  wsGo_suffix false input

theorem ws_length_le (input : List Char) : (ws input).length ≤ input.length :=
  (ws_suffix input).sublist.length_le

theorem wsGo_head_stop : ∀ (m : Bool) (input : List Char) (c : Char) (r : List Char),
    wsGo m input = c :: r →
    ¬isSpace c = true ∧ (c = ';' → r.takeWhile isCommentChar = []) := by
  intro m input
  induction m, input using wsGo.induct with
  | case1 => intro c r h; simp [wsGo] at h
  | case2 c0 rest hsp ih =>
    intro c r h
    rw [wsGo.eq_def] at h
    simp only [hsp, if_true] at h
    exact ih c r h
  | case3 hns =>
    intro c r h
    rw [wsGo.eq_def] at h
    simp only [isSpace, Char.reduceEq] at h
    simp only [Bool.or_self, Bool.false_or, if_false, Bool.false_eq_true] at h
    cases h
    exact ⟨by simp [isSpace], fun _ => by simp⟩
  | case4 b rest2 hb hns ih =>
    intro c r h
    rw [wsGo.eq_def] at h
    simp only [hb, if_true, isSpace, Char.reduceEq, Bool.or_self, Bool.false_or,
      Bool.false_eq_true, if_false, reduceIte] at h
    exact ih c r h
  | case5 b rest2 hb hns =>
    intro c r h
    rw [wsGo.eq_def] at h
    simp only [hb, isSpace, Char.reduceEq, Bool.or_self, Bool.false_or,
      Bool.false_eq_true, if_false, reduceIte] at h
    cases h
    refine ⟨by simp [isSpace], fun _ => ?_⟩
    rw [List.takeWhile_cons, if_neg (by simp [hb])]
  | case6 c0 rest hsp hc =>
    intro c r h
    rw [wsGo.eq_def] at h
    simp only [hsp, Bool.false_eq_true, if_false, if_neg hc] at h
    cases h
    exact ⟨hsp, fun hr => absurd hr hc⟩
  | case7 => intro c r h; simp [wsGo] at h
  | case8 c0 rest hcc ih =>
    intro c r h
    rw [wsGo.eq_def] at h
    simp only [hcc, if_true] at h
    exact ih c r h
  | case9 c0 rest hcc ih =>
    intro c r h
    rw [wsGo.eq_def] at h
    simp only [hcc, Bool.false_eq_true, if_false] at h
    exact ih c r h

/-- Whatever ws leaves begins with neither whitespace nor a nonempty
comment: this is the maximality of the consumed prefix. -/
theorem ws_head_stop {input : List Char} {c : Char} {r : List Char}
    (h : ws input = c :: r) :
    ¬isSpace c = true ∧ (c = ';' → r.takeWhile isCommentChar = []) :=
  wsGo_head_stop false input c r h

/-- Skipping whitespace twice is the same as skipping it once. -/
theorem ws_idem (input : List Char) : ws (ws input) = ws input := by
  match h : ws input with
  | [] => exact ws_nil
  | c :: r =>
    obtain ⟨h1, h2⟩ := ws_head_stop h
    exact ws_stop h1 h2

/-- Appending text cannot change what ws consumes, as long as ws already
stopped at a visible character other than a semicolon (a semicolon at the
very end of the input could fuse with appended text into a comment). -/
theorem wsGo_append : ∀ (m : Bool) (s : List Char) (t : List Char) (c : Char)
    (r : List Char), wsGo m s = c :: r → c ≠ ';' →
    wsGo m (s ++ t) = c :: (r ++ t) := by
  intro m s
  induction m, s using wsGo.induct with
  | case1 => intro t c r h hc; simp [wsGo] at h
  | case2 c0 rest hsp ih =>
    intro t c r h hc
    rw [wsGo.eq_def] at h
    simp only [hsp, if_true] at h
    rw [List.cons_append, wsGo.eq_def]
    simp only [hsp, if_true]
    exact ih t c r h hc
  | case3 hns =>
    intro t c r h hc
    rw [wsGo.eq_def] at h
    simp only [isSpace, Char.reduceEq, Bool.or_self, Bool.false_or,
      Bool.false_eq_true, if_false] at h
    cases h
    exact absurd rfl hc
  | case4 b rest2 hb hns ih =>
    intro t c r h hc
    rw [wsGo.eq_def] at h
    simp only [hb, if_true, isSpace, Char.reduceEq, Bool.or_self, Bool.false_or,
      Bool.false_eq_true, if_false, reduceIte] at h
    rw [List.cons_append, List.cons_append, wsGo.eq_def]
    simp only [hb, if_true, isSpace, Char.reduceEq, Bool.or_self, Bool.false_or,
      Bool.false_eq_true, if_false, reduceIte]
    exact ih t c r h hc
  | case5 b rest2 hb hns =>
    intro t c r h hc
    rw [wsGo.eq_def] at h
    simp only [hb, isSpace, Char.reduceEq, Bool.or_self, Bool.false_or,
      Bool.false_eq_true, if_false, reduceIte] at h
    cases h
    exact absurd rfl hc
  | case6 c0 rest hsp hc0 =>
    intro t c r h hc
    rw [wsGo.eq_def] at h
    simp only [hsp, Bool.false_eq_true, if_false, if_neg hc0] at h
    cases h
    rw [List.cons_append, wsGo.eq_def]
    simp only [hsp, Bool.false_eq_true, if_false, if_neg hc0]
  | case7 => intro t c r h hc; simp [wsGo] at h
  | case8 c0 rest hcc ih =>
    intro t c r h hc
    rw [wsGo.eq_def] at h
    simp only [hcc, if_true] at h
    rw [List.cons_append, wsGo.eq_def]
    simp only [hcc, if_true]
    exact ih t c r h hc
  | case9 c0 rest hcc ih =>
    intro t c r h hc
    rw [wsGo.eq_def] at h
    simp only [hcc, Bool.false_eq_true, if_false] at h
    rw [List.cons_append, wsGo.eq_def]
    simp only [hcc, Bool.false_eq_true, if_false]
    exact ih t c r h hc

theorem ws_append {s t : List Char} {c : Char} {r : List Char}
    (h : ws s = c :: r) (hc : c ≠ ';') : ws (s ++ t) = c :: (r ++ t) :=
  wsGo_append false s t c r h hc

/-! ## Maximal-prefix characterisation of ws (claim C3)

WsSteps s r holds when r is obtained from s by removing leading chunks, each
chunk being a single whitespace character or a nonempty line comment (a
semicolon plus at least one character that is neither newline nor carriage
return, running to, but excluding, the next newline or carriage return: the
comment body is followed by nothing, a newline, or a carriage return —
never by a further comment character). -/

/-- The first character dropWhile leaves fails the predicate. -/
theorem dropWhile_head_not {p : Char → Bool} {l dr : List Char} {d : Char}
    (h : l.dropWhile p = d :: dr) : p d = false := by
  have h0 : 0 < (l.dropWhile p).length := by rw [h]; simp
  have h1 := @List.dropWhile_get_zero_not Char p l h0
  rw [List.get_of_eq h] at h1
  simpa using h1

/-- Reflexive-transitive chunk-removal relation describing what ws
consumes.  A comment chunk is a semicolon and a nonempty all-comment-char
body that extends to, but excludes, the next newline or carriage return:
what follows the body starts with no further comment character. -/
inductive WsSteps : List Char → List Char → Prop where
  | refl (s : List Char) : WsSteps s s
  | space (c : Char) (s r : List Char) : isSpace c = true → WsSteps s r →
      WsSteps (c :: s) r
  | comment (body s r : List Char) : body ≠ [] →
      (∀ c ∈ body, isCommentChar c = true) →
      s.takeWhile isCommentChar = [] → WsSteps s r →
      WsSteps (';' :: (body ++ s)) r

/-- The remainder cannot begin with another consumable chunk: its head is
not whitespace, and a leading semicolon is not followed by a comment
character. -/
def noWsChunk : List Char → Prop
  | [] => True
  | c :: r => ¬isSpace c = true ∧ (c = ';' → r.takeWhile isCommentChar = [])

theorem ws_wsSteps (input : List Char) : WsSteps input (ws input) := by
  suffices h : ∀ (n : Nat) (input : List Char), input.length = n →
      WsSteps input (ws input) from h input.length input rfl
  intro n
  induction n using Nat.strong_induction_on with
  | _ n ih =>
  intro input hn
  match input with
  | [] => rw [ws_nil]; exact WsSteps.refl []
  | c :: rest =>
    by_cases hsp : isSpace c
    · rw [ws_space rest hsp]
      exact WsSteps.space c rest (ws rest) hsp
        (ih rest.length (by simp only [List.length_cons] at hn; omega) rest rfl)
    · by_cases hc : c = ';'
      · subst hc
        by_cases htk : rest.takeWhile isCommentChar = []
        · rw [ws_stop hsp (fun _ => htk)]
          exact WsSteps.refl _
        · rw [ws_comment htk]
          have hlt : (rest.dropWhile isCommentChar).length < n := by
            have h1 : (rest.takeWhile isCommentChar).length +
                (rest.dropWhile isCommentChar).length = rest.length := by
              rw [← List.length_append, List.takeWhile_append_dropWhile]
            have h2 : 0 < (rest.takeWhile isCommentChar).length :=
              List.length_pos.mpr htk
            simp only [List.length_cons] at hn
            omega
          have hmax : (rest.dropWhile isCommentChar).takeWhile
              isCommentChar = [] := by
            cases hd : rest.dropWhile isCommentChar with
            | nil => rfl
            | cons d dr =>
              rw [List.takeWhile_cons,
                if_neg (by simp [dropWhile_head_not hd])]
          have step := WsSteps.comment (rest.takeWhile isCommentChar)
            (rest.dropWhile isCommentChar) (ws (rest.dropWhile isCommentChar)) htk
            (fun c hc => List.mem_takeWhile_imp hc)
            hmax
            (ih _ hlt _ rfl)
          rw [List.takeWhile_append_dropWhile] at step
          exact step
      · rw [ws_stop hsp (fun h => absurd h hc)]
        exact WsSteps.refl _

theorem ws_noWsChunk (input : List Char) : noWsChunk (ws input) := by
  match h : ws input with
  | [] => trivial
  | c :: r => exact ws_head_stop h

/-! ## Atom parsers (parser.rs)

parse_string is delimited(char('"'), take_while(c != '"'), char('"'));
parse_number is map_res(digit1, str::parse::<i64>) — overflow beyond the
i64 maximum makes the parse fail; parse_symbol is a starting letter or
operator character followed by the maximal run of continuation characters;
parse_atom is the ordered alternation number, string, symbol. -/

/-- Largest value of a signed 64-bit integer, the overflow bound of
str::parse::<i64> on an all-digit string. -/
def i64Max : Nat := 9223372036854775807

/-- Numeric value of a digit string, as computed by str::parse. -/
def digitsToNat (ds : List Char) : Nat :=
  ds.foldl (fun acc c => 10 * acc + (c.toNat - '0'.toNat)) 0

/-- Test for nom's char combinator: does the input start with c. -/
def headIs (c : Char) : List Char → Bool
  | d :: _ => d = c
  | [] => false

/-- A successful head test means the input is its head consed on its tail,
and taking the tail shortens the input. -/
theorem headIs_eq {c : Char} {l : List Char} (h : headIs c l = true) :
    l = c :: l.tail := by
  match l with
  | [] => simp [headIs] at h
  | d :: r =>
    simp only [headIs, decide_eq_true_eq] at h
    simp [h]

theorem headIs_tail_length {c : Char} {l : List Char} (h : headIs c l = true) :
    l.tail.length + 1 = l.length := by
  rw [headIs_eq h]
  simp

/-- parse_string from parser.rs: an opening double quote, any run of
characters other than a double quote, and a closing double quote. -/
def parseString (input : List Char) : Option (List Char × Atom) :=
  if headIs '"' input then
    if headIs '"' (input.tail.dropWhile (fun c => c ≠ '"')) then
      some ((input.tail.dropWhile (fun c => c ≠ '"')).tail,
        .string (String.mk (input.tail.takeWhile (fun c => c ≠ '"'))))
    else none
  else none

/-- parse_number from parser.rs: digit1 demands at least one digit, and
str::parse rejects a value beyond the i64 maximum. -/
def parseNumber (input : List Char) : Option (List Char × Atom) :=
  if (input.takeWhile Char.isDigit).isEmpty then none
  else if digitsToNat (input.takeWhile Char.isDigit) ≤ i64Max then
    some (input.dropWhile Char.isDigit,
      .number (Int.ofNat (digitsToNat (input.takeWhile Char.isDigit))))
  else none

/-- parse_symbol from parser.rs. -/
def parseSymbol (input : List Char) : Option (List Char × Atom) :=
  match input with
  | c :: rest =>
    if isSymbolStart c then
      some (rest.dropWhile isSymbolCont,
            .symbol (String.mk (c :: rest.takeWhile isSymbolCont)))
    else none
  | [] => none

/-- parse_atom from parser.rs: numbers before strings before symbols. -/
def parseAtom (input : List Char) : Option (List Char × Atom) :=
  match parseNumber input with
  | some r => some r
  | none =>
    match parseString input with
    | some r => some r
    | none => parseSymbol input

theorem takeWhile_ne_nil_length_lt {p : Char → Bool} {l : List Char}
    (h : l.takeWhile p ≠ []) : (l.dropWhile p).length < l.length := by
  have hsum : (l.takeWhile p).length + (l.dropWhile p).length = l.length := by
    rw [← List.length_append, List.takeWhile_append_dropWhile]
  have hpos : 0 < (l.takeWhile p).length := List.length_pos.mpr h
  omega

theorem parseString_length_lt {input r : List Char} {a : Atom}
    (h : parseString input = some (r, a)) : r.length < input.length := by
  unfold parseString at h
  by_cases h1 : headIs '"' input
  · rw [if_pos h1] at h
    by_cases h2 : headIs '"' (input.tail.dropWhile (fun c => c ≠ '"'))
    · rw [if_pos h2] at h
      simp only [Option.some.injEq, Prod.mk.injEq] at h
      obtain ⟨h3, _⟩ := h
      subst h3
      have h4 := headIs_tail_length h1
      have h5 := headIs_tail_length h2
      have h6 := (List.dropWhile_sublist (fun c => c ≠ '"') (l := input.tail)).length_le
      omega
    · rw [if_neg h2] at h
      simp at h
  · rw [if_neg h1] at h
    simp at h

theorem parseNumber_length_lt {input r : List Char} {a : Atom}
    (h : parseNumber input = some (r, a)) : r.length < input.length := by
  unfold parseNumber at h
  by_cases h1 : (input.takeWhile Char.isDigit).isEmpty
  · rw [if_pos h1] at h
    simp at h
  · rw [if_neg h1] at h
    by_cases h2 : digitsToNat (input.takeWhile Char.isDigit) ≤ i64Max
    · rw [if_pos h2] at h
      simp only [Option.some.injEq, Prod.mk.injEq] at h
      obtain ⟨h3, _⟩ := h
      subst h3
      exact takeWhile_ne_nil_length_lt (by simpa using h1)
    · rw [if_neg h2] at h
      simp at h

theorem parseSymbol_length_lt {input r : List Char} {a : Atom}
    (h : parseSymbol input = some (r, a)) : r.length < input.length := by
  unfold parseSymbol at h
  split at h
  · rename_i c rest
    split at h
    · simp only [Option.some.injEq, Prod.mk.injEq] at h
      obtain ⟨h1, _⟩ := h
      subst h1
      have := (List.dropWhile_sublist isSymbolCont (l := rest)).length_le
      simp only [List.length_cons]
      omega
    · simp at h
  · simp at h

theorem parseAtom_length_lt {input r : List Char} {a : Atom}
    (h : parseAtom input = some (r, a)) : r.length < input.length := by
  unfold parseAtom at h
  split at h
  · rename_i heq
    cases h
    exact parseNumber_length_lt heq
  · split at h
    · rename_i heq
      cases h
      exact parseString_length_lt heq
    · exact parseSymbol_length_lt h

/-! ## Recursive parsers (parser.rs)

The four mutually recursive parsers carry a fuel argument (first argument)
so that they are structurally recursive; fuel zero yields PRes.out.  The
sufficiency theorem below shows fuel 4 * length + 4 is always enough, so
the out state is an artifact that a sufficiently fuelled run never hits.
nom's char combinator consumes one expected character or fails; it is
modelled by a head test plus tail. -/

/-- Result of a fuelled nom parser: success with the remaining input, a
recoverable parse error, or fuel exhaustion. -/
inductive PRes (α : Type) where
  | ok (rest : List Char) (val : α) : PRes α
  | fail : PRes α
  | out : PRes α

/-- Look-ahead used by the element loop of parse_list:
starts_with(')') || starts_with('.'). -/
def startsWithStop : List Char → Bool
  | c :: _ => c = ')' || c = '.'
  | [] => false

mutual

/-- parse_quoted from parser.rs: an apostrophe followed by an expression E
becomes the list (quote E). -/
def parseQuoted : Nat → List Char → PRes Sexpr
  | 0, _ => .out
  | n + 1, input =>
    if headIs '\'' input then
      match parseSexpr n input.tail with
      | .ok r e => .ok r (.list [.atom (.symbol "quote"), e])
      | .fail => .fail
      | .out => .out
    else .fail

/-- parse_list from parser.rs: leading whitespace and an opening paren; an
immediately closing paren (after whitespace) yields Atom.nil; otherwise
expressions are read until the next significant character is a dot or a
closing paren, then a dot demands exactly one further expression and a
closing paren (dotted list), and otherwise a closing paren ends a proper
list. -/
def parseList : Nat → List Char → PRes Sexpr
  | 0, _ => .out
  | n + 1, input =>
    if headIs '(' (ws input) then
      -- the loop of parse_list starts right after the opening paren
      if headIs ')' (ws (ws input).tail) then
        .ok (ws (ws input).tail).tail (.atom .nil)
      else
        match parseListElems n (ws input).tail with
        | .out => .out
        | .fail => .fail
        | .ok cur elems =>
          if headIs '.' (ws cur) then
            match parseSexpr n (ws (ws cur).tail) with
            | .out => .out
            | .fail => .fail
            | .ok r1 fin =>
              if headIs ')' (ws r1) then .ok (ws r1).tail (.dottedList elems fin)
              else .fail
          else if headIs ')' (ws cur) then .ok (ws cur).tail (.list elems)
          else .fail
    else .fail

/-- Element loop inside parse_list: peek past whitespace, stop before a dot
or closing paren, otherwise read one expression and continue; a failing
element read propagates out of parse_list. -/
def parseListElems : Nat → List Char → PRes (List Sexpr)
  | 0, _ => .out
  | n + 1, input =>
    if startsWithStop (ws input) then .ok (ws input) []
    else
      match parseSexpr n input with
      | .out => .out
      | .fail => .fail
      | .ok next e =>
        match parseListElems n next with
        | .out => .out
        | .fail => .fail
        | .ok r es => .ok r (e :: es)

/-- parse_sexpr from parser.rs: skip whitespace, then try quoted, list and
atom in that order. -/
def parseSexpr : Nat → List Char → PRes Sexpr
  | 0, _ => .out
  | n + 1, input =>
    match parseQuoted n (ws input) with
    | .ok r e => .ok r e
    | .out => .out
    | .fail =>
      match parseList n (ws input) with
      | .ok r e => .ok r e
      | .out => .out
      | .fail =>
        match parseAtom (ws input) with
        | some (r, a) => .ok r (.atom a)
        | none => .fail

end

/-- parse from parser.rs: many0(parse_sexpr).  nom's many0 stops at the
first recoverable error of the inner parser; it fails only if an iteration
succeeds without consuming input (the Many0 infinite-loop guard), a branch
the consumption theorem below shows to be dead. -/
def parse : Nat → List Char → PRes (List Sexpr)
  | 0, _ => .out
  | n + 1, input =>
    match parseSexpr n input with
    | .out => .out
    | .fail => .ok input []
    | .ok rest e =>
      if rest.length = input.length then .fail
      else
        match parse n rest with
        | .out => .out
        | .fail => .fail
        | .ok r es => .ok r (e :: es)

/-! ## Consumption: a successful parse consumes input

Each successful parse_sexpr strictly shrinks the input; this is what rules
out the Many0 infinite-loop guard of nom inside parse. -/

theorem parser_consume (n : Nat) :
    (∀ i r e, parseQuoted n i = .ok r e → r.length < i.length) ∧
    (∀ i r e, parseList n i = .ok r e → r.length < i.length) ∧
    (∀ i r es, parseListElems n i = .ok r es → r.length ≤ i.length) ∧
    (∀ i r e, parseSexpr n i = .ok r e → r.length < i.length) := by
  induction n with
  | zero =>
    refine ⟨fun i r e h => ?_, fun i r e h => ?_, fun i r es h => ?_,
      fun i r e h => ?_⟩ <;>
      simp [parseQuoted, parseList, parseListElems, parseSexpr] at h
  | succ n ih =>
    obtain ⟨ihq, ihl, ihe, ihs⟩ := ih
    refine ⟨?_, ?_, ?_, ?_⟩
    · intro i r e h
      by_cases hq : headIs '\'' i
      · simp only [parseQuoted, hq, if_true] at h
        cases h0 : parseSexpr n i.tail with
        | ok r0 e0 =>
          simp only [h0] at h
          cases h
          have h1 := ihs i.tail r e0 h0
          have h2 := headIs_tail_length hq
          omega
        | fail => simp [h0] at h
        | out => simp [h0] at h
      · simp [parseQuoted, hq] at h
    · intro i r e h
      by_cases hp : headIs '(' (ws i)
      · have hwle := ws_length_le i
        have htl := headIs_tail_length hp
        simp only [parseList, hp, if_true] at h
        by_cases hcl : headIs ')' (ws (ws i).tail)
        · simp only [hcl, if_true] at h
          cases h
          have h1 := ws_length_le (ws i).tail
          have h2 := headIs_tail_length hcl
          omega
        · simp only [hcl, if_false, Bool.false_eq_true] at h
          cases h0 : parseListElems n (ws i).tail with
          | out => simp [h0] at h
          | fail => simp [h0] at h
          | ok cur elems =>
            simp only [h0] at h
            have hcur : cur.length ≤ (ws i).tail.length := ihe _ cur elems h0
            by_cases hdot : headIs '.' (ws cur)
            · simp only [hdot, if_true] at h
              have hwc := ws_length_le cur
              have hdt := headIs_tail_length hdot
              cases h1 : parseSexpr n (ws (ws cur).tail) with
              | out => simp [h1] at h
              | fail => simp [h1] at h
              | ok r1 fin =>
                simp only [h1] at h
                have h2 := ihs _ r1 fin h1
                have h3 := ws_length_le (ws cur).tail
                by_cases hcl2 : headIs ')' (ws r1)
                · simp only [hcl2, if_true] at h
                  cases h
                  have h4 := ws_length_le r1
                  have h5 := headIs_tail_length hcl2
                  omega
                · simp [hcl2] at h
            · simp only [hdot, if_false, Bool.false_eq_true] at h
              by_cases hcl2 : headIs ')' (ws cur)
              · simp only [hcl2, if_true] at h
                cases h
                have h2 := ws_length_le cur
                have h3 := headIs_tail_length hcl2
                omega
              · simp [hcl2] at h
      · simp [parseList, hp] at h
    · intro i r es h
      by_cases hstop : startsWithStop (ws i)
      · simp only [parseListElems, hstop, if_true] at h
        cases h
        exact ws_length_le i
      · simp only [parseListElems, hstop, if_false, Bool.false_eq_true] at h
        cases h0 : parseSexpr n i with
        | out => simp [h0] at h
        | fail => simp [h0] at h
        | ok next0 e =>
          simp only [h0] at h
          have h1 := ihs i next0 e h0
          cases h2 : parseListElems n next0 with
          | out => simp [h2] at h
          | fail => simp [h2] at h
          | ok r0 es0 =>
            simp only [h2] at h
            injection h with h3 h4
            have h5 := ihe next0 r0 es0 h2
            rw [← h3]
            omega
    · intro i r e h
      have hwle := ws_length_le i
      simp only [parseSexpr] at h
      cases h0 : parseQuoted n (ws i) with
      | ok r0 e0 =>
        simp only [h0] at h
        cases h
        have := ihq (ws i) r e h0
        omega
      | out => simp [h0] at h
      | fail =>
        simp only [h0] at h
        cases h1 : parseList n (ws i) with
        | ok r0 e0 =>
          simp only [h1] at h
          cases h
          have := ihl (ws i) r e h1
          omega
        | out => simp [h1] at h
        | fail =>
          simp only [h1] at h
          cases h2 : parseAtom (ws i) with
          | some v =>
            match v with
            | (r0, a0) =>
              simp only [h2] at h
              cases h
              have := parseAtom_length_lt h2
              omega
          | none => simp [h2] at h

theorem parseSexpr_consume {n : Nat} {i r : List Char} {e : Sexpr}
    (h : parseSexpr n i = .ok r e) : r.length < i.length :=
  (parser_consume n).2.2.2 i r e h

/-! ## Fuel monotonicity: adding fuel never changes a settled result -/

theorem parser_mono (n : Nat) :
    (∀ i, parseQuoted n i ≠ .out → parseQuoted (n + 1) i = parseQuoted n i) ∧
    (∀ i, parseList n i ≠ .out → parseList (n + 1) i = parseList n i) ∧
    (∀ i, parseListElems n i ≠ .out → parseListElems (n + 1) i = parseListElems n i) ∧
    (∀ i, parseSexpr n i ≠ .out → parseSexpr (n + 1) i = parseSexpr n i) := by
  induction n with
  | zero =>
    refine ⟨fun i h => ?_, fun i h => ?_, fun i h => ?_, fun i h => ?_⟩ <;>
      simp [parseQuoted, parseList, parseListElems, parseSexpr] at h
  | succ n ih =>
    obtain ⟨ihq, ihl, ihe, ihs⟩ := ih
    refine ⟨?_, ?_, ?_, ?_⟩
    · intro i hne
      by_cases hq : headIs '\'' i
      · simp only [parseQuoted, hq, if_true] at hne ⊢
        cases h0 : parseSexpr n i.tail with
        | ok r e => rw [ihs i.tail (by rw [h0]; simp)]; simp only [h0]
        | fail => rw [ihs i.tail (by rw [h0]; simp)]; simp only [h0]
        | out => simp [h0] at hne
      · simp [parseQuoted, hq]
    · intro i hne
      by_cases hp : headIs '(' (ws i)
      · simp only [parseList, hp, if_true] at hne ⊢
        by_cases hcl : headIs ')' (ws (ws i).tail)
        · simp [hcl]
        · simp only [hcl, if_false, Bool.false_eq_true] at hne ⊢
          cases h0 : parseListElems n (ws i).tail with
          | out => simp [h0] at hne
          | fail => rw [ihe _ (by rw [h0]; simp)]; simp only [h0]
          | ok cur elems =>
            rw [ihe _ (by rw [h0]; simp)]
            simp only [h0] at hne ⊢
            by_cases hdot : headIs '.' (ws cur)
            · simp only [hdot, if_true] at hne ⊢
              cases h1 : parseSexpr n (ws (ws cur).tail) with
              | out => simp [h1] at hne
              | fail => rw [ihs _ (by rw [h1]; simp)]; simp only [h1]
              | ok r1 fin => rw [ihs _ (by rw [h1]; simp)]; simp only [h1]
            · simp [hdot]
      · simp [parseList, hp]
    · intro i hne
      rw [parseListElems.eq_def (n + 1) i] at hne
      rw [parseListElems.eq_def (n + 2) i, parseListElems.eq_def (n + 1) i]
      simp only [← Nat.succ_eq_add_one] at hne ⊢
      simp only [Nat.succ_eq_add_one] at hne ⊢
      by_cases hstop : startsWithStop (ws i)
      · simp [hstop]
      · simp only [hstop, if_false, Bool.false_eq_true] at hne ⊢
        cases h0 : parseSexpr n i with
        | out => simp [h0] at hne
        | fail => rw [ihs i (by rw [h0]; simp)]; simp only [h0]
        | ok next0 e =>
          rw [ihs i (by rw [h0]; simp)]
          simp only [h0] at hne ⊢
          cases h1 : parseListElems n next0 with
          | out => simp [h1] at hne
          | fail => rw [ihe next0 (by rw [h1]; simp)]; simp only [h1]
          | ok r es => rw [ihe next0 (by rw [h1]; simp)]; simp only [h1]
    · intro i hne
      simp only [parseSexpr] at hne ⊢
      cases h0 : parseQuoted n (ws i) with
      | ok r e => rw [ihq (ws i) (by rw [h0]; simp)]; simp only [h0]
      | out => simp [h0] at hne
      | fail =>
        rw [ihq (ws i) (by rw [h0]; simp)]
        simp only [h0] at hne ⊢
        cases h1 : parseList n (ws i) with
        | ok r e => rw [ihl (ws i) (by rw [h1]; simp)]; simp only [h1]
        | out => simp [h1] at hne
        | fail => rw [ihl (ws i) (by rw [h1]; simp)]; simp only [h1]

theorem parseSexpr_mono_succ {n : Nat} {i : List Char}
    (h : parseSexpr n i ≠ .out) : parseSexpr (n + 1) i = parseSexpr n i :=
  (parser_mono n).2.2.2 i h

/-- Transport of a settled parseSexpr result to any larger fuel. -/
theorem parseSexpr_mono {n m : Nat} {i : List Char} (hnm : n ≤ m)
    (h : parseSexpr n i ≠ .out) : parseSexpr m i = parseSexpr n i := by
  induction m with
  | zero =>
    have : n = 0 := Nat.le_zero.mp hnm
    rw [this]
  | succ m ihm =>
    rcases Nat.lt_or_ge n (m + 1) with hlt | hge
    · have hle : n ≤ m := Nat.lt_succ_iff.mp hlt
      have heq := ihm hle
      rw [parseSexpr_mono_succ (heq ▸ h), heq]
    · have : n = m + 1 := Nat.le_antisymm hnm hge
      rw [this]

theorem parse_mono_succ (n : Nat) :
    ∀ i, parse n i ≠ .out → parse (n + 1) i = parse n i := by
  induction n with
  | zero => intro i h; simp [parse] at h
  | succ n ihp =>
    intro i hne
    rw [parse.eq_def (n + 1) i] at hne
    rw [parse.eq_def (n + 2) i, parse.eq_def (n + 1) i]
    simp only [← Nat.succ_eq_add_one] at hne ⊢
    simp only [Nat.succ_eq_add_one] at hne ⊢
    cases h0 : parseSexpr n i with
    | out => simp [h0] at hne
    | fail => rw [parseSexpr_mono_succ (by rw [h0]; simp)]; simp only [h0]
    | ok rest e =>
      rw [parseSexpr_mono_succ (by rw [h0]; simp)]
      simp only [h0] at hne ⊢
      by_cases hlen : rest.length = i.length
      · simp [hlen]
      · simp only [hlen, if_false] at hne ⊢
        cases h1 : parse n rest with
        | out => simp [h1] at hne
        | fail => rw [ihp rest (by rw [h1]; simp)]; simp only [h1]
        | ok r es => rw [ihp rest (by rw [h1]; simp)]; simp only [h1]

/-- Transport of a settled parse result to any larger fuel. -/
theorem parse_mono {n m : Nat} {i : List Char} (hnm : n ≤ m)
    (h : parse n i ≠ .out) : parse m i = parse n i := by
  induction m with
  | zero =>
    have : n = 0 := Nat.le_zero.mp hnm
    rw [this]
  | succ m ihm =>
    rcases Nat.lt_or_ge n (m + 1) with hlt | hge
    · have hle : n ≤ m := Nat.lt_succ_iff.mp hlt
      have heq := ihm hle
      rw [parse_mono_succ m i (heq ▸ h), heq]
    · have : n = m + 1 := Nat.le_antisymm hnm hge
      rw [this]

/-! ## Fuel sufficiency: 4 · length + 4 fuel never runs out

This is the termination argument of the Rust parser, made explicit: the
recursion of the reader is bounded by the input length, so a fuelled run
with the stated budget never yields PRes.out. -/

theorem parser_sufficient (n : Nat) :
    (∀ i, 4 * i.length < n → parseQuoted n i ≠ .out) ∧
    (∀ i, 4 * i.length < n → parseList n i ≠ .out) ∧
    (∀ i, 4 * i.length + 2 < n → parseListElems n i ≠ .out) ∧
    (∀ i, 4 * i.length + 1 < n → parseSexpr n i ≠ .out) := by
  induction n with
  | zero =>
    refine ⟨fun i h => ?_, fun i h => ?_, fun i h => ?_, fun i h => ?_⟩ <;> omega
  | succ n ih =>
    obtain ⟨ihq, ihl, ihe, ihs⟩ := ih
    refine ⟨?_, ?_, ?_, ?_⟩
    · intro i hfuel
      by_cases hq : headIs '\'' i
      · have htl := headIs_tail_length hq
        simp only [parseQuoted, hq, if_true]
        cases h0 : parseSexpr n i.tail with
        | ok r e => simp
        | fail => simp
        | out =>
          exact absurd h0 (ihs i.tail (by omega))
      · simp [parseQuoted, hq]
    · intro i hfuel
      have hwle := ws_length_le i
      by_cases hp : headIs '(' (ws i)
      · have htl := headIs_tail_length hp
        simp only [parseList, hp, if_true]
        by_cases hcl : headIs ')' (ws (ws i).tail)
        · simp [hcl]
        · simp only [hcl, if_false, Bool.false_eq_true]
          cases h0 : parseListElems n (ws i).tail with
          | out => exact absurd h0 (ihe (ws i).tail (by omega))
          | fail => simp
          | ok cur elems =>
            have hcur : cur.length ≤ (ws i).tail.length :=
              (parser_consume n).2.2.1 _ cur elems h0
            by_cases hdot : headIs '.' (ws cur)
            · have hwc := ws_length_le cur
              have hdt := headIs_tail_length hdot
              have hwd := ws_length_le (ws cur).tail
              simp only [hdot, if_true]
              cases h1 : parseSexpr n (ws (ws cur).tail) with
              | out => exact absurd h1 (ihs _ (by omega))
              | fail => simp
              | ok r1 fin =>
                by_cases hcl2 : headIs ')' (ws r1) <;> simp [hcl2]
            · by_cases hcl2 : headIs ')' (ws cur) <;> simp [hdot, hcl2]
      · simp [parseList, hp]
    · intro i hfuel
      by_cases hstop : startsWithStop (ws i)
      · simp [parseListElems, hstop]
      · simp only [parseListElems, hstop, if_false, Bool.false_eq_true]
        cases h0 : parseSexpr n i with
        | out => exact absurd h0 (ihs i (by omega))
        | fail => simp
        | ok next0 e =>
          have hnext : next0.length < i.length := (parser_consume n).2.2.2 i next0 e h0
          simp only [h0]
          cases h1 : parseListElems n next0 with
          | out => exact absurd h1 (ihe next0 (by omega))
          | fail => simp [h1]
          | ok r es => simp [h1]
    · intro i hfuel
      have hwle := ws_length_le i
      simp only [parseSexpr]
      cases h0 : parseQuoted n (ws i) with
      | ok r e => simp
      | out => exact absurd h0 (ihq (ws i) (by omega))
      | fail =>
        cases h1 : parseList n (ws i) with
        | ok r e => simp
        | out => exact absurd h1 (ihl (ws i) (by omega))
        | fail =>
          cases h2 : parseAtom (ws i) with
          | some v => match v with | (r, a) => simp
          | none => simp

theorem parseSexpr_sufficient {n : Nat} {i : List Char}
    (h : 4 * i.length + 1 < n) : parseSexpr n i ≠ .out :=
  (parser_sufficient n).2.2.2 i h

/-- Totality of the reader: with fuel 4 · length + 4 the toplevel parse
always returns ok — it neither fails (malformed tails just stop the
expression sequence early) nor runs out of fuel. -/
theorem parse_total : ∀ (fuel : Nat) (input : List Char),
    4 * input.length + 3 < fuel → ∃ r es, parse fuel input = .ok r es := by
  intro fuel
  induction fuel with
  | zero => intro input h; omega
  | succ n ih =>
    intro input h
    cases h0 : parseSexpr n input with
    | out =>
      exact absurd h0 (parseSexpr_sufficient (by omega))
    | fail =>
      exact ⟨input, [], by simp [parse, h0]⟩
    | ok rest e =>
      have hlen : rest.length < input.length := parseSexpr_consume h0
      obtain ⟨r, es, heq⟩ := ih rest (by omega)
      refine ⟨r, e :: es, ?_⟩
      simp only [parse, h0]
      rw [if_neg (by omega)]
      simp [heq]

/-! ## Reader invariant (claim C6): list nodes are never empty

The reader normalises () to Atom.nil, so a produced List node always holds
at least one element.  The element loop additionally reports where it
stopped when it read nothing, which is what rules out an empty proper list
in parse_list. -/

theorem parser_wf (n : Nat) :
    (∀ i r e, parseQuoted n i = .ok r e → noEmptyList e = true) ∧
    (∀ i r e, parseList n i = .ok r e → noEmptyList e = true) ∧
    (∀ i r es, parseListElems n i = .ok r es →
      noEmptyListAll es = true ∧ (es = [] → r = ws i)) ∧
    (∀ i r e, parseSexpr n i = .ok r e → noEmptyList e = true) := by
  induction n with
  | zero =>
    refine ⟨fun i r e h => ?_, fun i r e h => ?_, fun i r es h => ?_,
      fun i r e h => ?_⟩ <;>
      simp [parseQuoted, parseList, parseListElems, parseSexpr] at h
  | succ n ih =>
    obtain ⟨ihq, ihl, ihe, ihs⟩ := ih
    refine ⟨?_, ?_, ?_, ?_⟩
    · intro i r e h
      by_cases hq : headIs '\'' i
      · simp only [parseQuoted, hq, if_true] at h
        cases h0 : parseSexpr n i.tail with
        | ok r0 e0 =>
          simp only [h0] at h
          cases h
          have h1 := ihs i.tail r e0 h0
          simp [noEmptyList, noEmptyListAll, h1]
        | fail => simp [h0] at h
        | out => simp [h0] at h
      · simp [parseQuoted, hq] at h
    · intro i r e h
      by_cases hp : headIs '(' (ws i)
      · simp only [parseList, hp, if_true] at h
        by_cases hcl : headIs ')' (ws (ws i).tail)
        · simp only [hcl, if_true] at h
          cases h
          simp [noEmptyList]
        · simp only [hcl, if_false, Bool.false_eq_true] at h
          cases h0 : parseListElems n (ws i).tail with
          | out => simp [h0] at h
          | fail => simp [h0] at h
          | ok cur elems =>
            simp only [h0] at h
            obtain ⟨hall, hempty⟩ := ihe _ cur elems h0
            by_cases hdot : headIs '.' (ws cur)
            · simp only [hdot, if_true] at h
              cases h1 : parseSexpr n (ws (ws cur).tail) with
              | out => simp [h1] at h
              | fail => simp [h1] at h
              | ok r1 fin =>
                simp only [h1] at h
                have h2 := ihs _ r1 fin h1
                by_cases hcl2 : headIs ')' (ws r1)
                · simp only [hcl2, if_true] at h
                  cases h
                  simp [noEmptyList, hall, h2]
                · simp [hcl2] at h
            · simp only [hdot, if_false, Bool.false_eq_true] at h
              by_cases hcl2 : headIs ')' (ws cur)
              · simp only [hcl2, if_true] at h
                cases h
                cases helems : elems with
                | nil =>
                  exfalso
                  have hcur := hempty helems
                  rw [hcur, ws_idem] at hcl2
                  exact hcl hcl2
                | cons e0 es0 =>
                  rw [helems] at hall
                  simp [noEmptyList, helems, hall]
              · simp [hcl2] at h
      · simp [parseList, hp] at h
    · intro i r es h
      by_cases hstop : startsWithStop (ws i)
      · simp only [parseListElems, hstop, if_true] at h
        cases h
        exact ⟨rfl, fun _ => rfl⟩
      · simp only [parseListElems, hstop, if_false, Bool.false_eq_true] at h
        cases h0 : parseSexpr n i with
        | out => simp [h0] at h
        | fail => simp [h0] at h
        | ok next0 e =>
          simp only [h0] at h
          cases h1 : parseListElems n next0 with
          | out => simp [h1] at h
          | fail => simp [h1] at h
          | ok r0 es0 =>
            simp only [h1] at h
            cases h
            have h2 := ihs i next0 e h0
            have h3 := (ihe next0 r es0 h1).1
            refine ⟨by simp [noEmptyListAll, h2, h3], fun hcon => ?_⟩
            simp at hcon
    · intro i r e h
      simp only [parseSexpr] at h
      cases h0 : parseQuoted n (ws i) with
      | ok r0 e0 =>
        simp only [h0] at h
        cases h
        exact ihq (ws i) r e h0
      | out => simp [h0] at h
      | fail =>
        simp only [h0] at h
        cases h1 : parseList n (ws i) with
        | ok r0 e0 =>
          simp only [h1] at h
          cases h
          exact ihl (ws i) r e h1
        | out => simp [h1] at h
        | fail =>
          simp only [h1] at h
          cases h2 : parseAtom (ws i) with
          | some v =>
            match v with
            | (r0, a0) =>
              simp only [h2] at h
              cases h
              simp [noEmptyList]
          | none => simp [h2] at h

/-! ## Extension lemmas (claim C7)

Appending a closing paren to the input of a successful parse does not
disturb it: the same value is produced and the paren lands at the head of
the remainder.  This is what makes the textual forms quote-X-sugar and
(quote X) parse alike. -/

theorem takeWhile_append_cons {p : Char → Bool} {l r : List Char} {c : Char}
    (h : l.dropWhile p = c :: r) (t : List Char) :
    (l ++ t).takeWhile p = l.takeWhile p := by
  rw [List.takeWhile_append]
  rw [if_neg]
  intro hlen
  have hall : l.takeWhile p = l :=
    ((List.takeWhile_sublist p (l := l)).length_eq).mp hlen
  have hnil : l.dropWhile p = [] := by
    have hsum : (l.takeWhile p).length + (l.dropWhile p).length = l.length := by
      rw [← List.length_append, List.takeWhile_append_dropWhile]
    rw [hlen] at hsum
    exact List.eq_nil_of_length_eq_zero (by omega)
  rw [hnil] at h
  simp at h

theorem dropWhile_append_cons {p : Char → Bool} {l r : List Char} {c : Char}
    (h : l.dropWhile p = c :: r) (t : List Char) :
    (l ++ t).dropWhile p = c :: (r ++ t) := by
  rw [List.dropWhile_append, h]
  simp

theorem takeWhile_append_false {p : Char → Bool} (hp : p ')' = false)
    (l : List Char) : (l ++ [')']).takeWhile p = l.takeWhile p := by
  cases hd : l.dropWhile p with
  | nil =>
    have hall : l.takeWhile p = l := by
      have h1 := List.takeWhile_append_dropWhile (p := p) (l := l)
      rw [hd] at h1
      simpa using h1
    rw [List.takeWhile_append, if_pos (by rw [hall]), hall]
    simp [List.takeWhile, hp]
  | cons c r => exact takeWhile_append_cons hd [')']

theorem dropWhile_append_false {p : Char → Bool} (hp : p ')' = false)
    (l : List Char) : (l ++ [')']).dropWhile p = l.dropWhile p ++ [')'] := by
  cases hd : l.dropWhile p with
  | nil =>
    rw [List.dropWhile_append, hd]
    simp [List.dropWhile, hp]
  | cons c r =>
    rw [dropWhile_append_cons hd]
    simp

theorem headIs_append {c : Char} {l : List Char} (t : List Char)
    (h : l ≠ []) : headIs c (l ++ t) = headIs c l := by
  match l with
  | [] => exact absurd rfl h
  | d :: r => simp [headIs]

theorem parseNumber_ext {x r : List Char} {a : Atom}
    (h : parseNumber x = some (r, a)) :
    parseNumber (x ++ [')']) = some (r ++ [')'], a) := by
  have hdig : Char.isDigit ')' = false := by decide
  unfold parseNumber at h ⊢
  rw [takeWhile_append_false hdig, dropWhile_append_false hdig]
  by_cases h1 : (x.takeWhile Char.isDigit).isEmpty
  · rw [if_pos h1] at h
    simp at h
  · rw [if_neg h1] at h ⊢
    by_cases h2 : digitsToNat (x.takeWhile Char.isDigit) ≤ i64Max
    · rw [if_pos h2] at h ⊢
      simp only [Option.some.injEq, Prod.mk.injEq] at h ⊢
      obtain ⟨h3, h4⟩ := h
      exact ⟨by rw [h3], h4⟩
    · rw [if_neg h2] at h
      simp at h

theorem parseNumber_fail_ext {x : List Char}
    (h : parseNumber x = none) : parseNumber (x ++ [')']) = none := by
  have hdig : Char.isDigit ')' = false := by decide
  unfold parseNumber at h ⊢
  rw [takeWhile_append_false hdig]
  by_cases h1 : (x.takeWhile Char.isDigit).isEmpty
  · rw [if_pos h1]
  · rw [if_neg h1] at h ⊢
    by_cases h2 : digitsToNat (x.takeWhile Char.isDigit) ≤ i64Max
    · rw [if_pos h2] at h
      simp at h
    · rw [if_neg h2]

theorem parseString_ext {x r : List Char} {a : Atom}
    (h : parseString x = some (r, a)) :
    parseString (x ++ [')']) = some (r ++ [')'], a) := by
  unfold parseString at h ⊢
  by_cases h1 : headIs '"' x
  · rw [if_pos h1] at h
    obtain ⟨cs, rfl⟩ : ∃ cs, x = '"' :: cs := ⟨x.tail, headIs_eq h1⟩
    simp only [List.tail_cons] at h ⊢
    by_cases h2 : headIs '"' (cs.dropWhile (fun c => c ≠ '"'))
    · rw [if_pos h2] at h
      simp only [Option.some.injEq, Prod.mk.injEq] at h
      obtain ⟨h3, h4⟩ := h
      have hd := headIs_eq h2
      simp only [List.cons_append]
      rw [if_pos (by simp [headIs]), List.tail_cons,
        dropWhile_append_cons hd, takeWhile_append_cons hd]
      rw [if_pos (by simp [headIs])]
      simp only [List.tail_cons, Option.some.injEq, Prod.mk.injEq]
      exact ⟨by rw [h3], h4⟩
    · rw [if_neg h2] at h
      simp at h
  · rw [if_neg h1] at h
    simp at h

theorem parseString_fail_ext {x : List Char}
    (h : parseString x = none) : parseString (x ++ [')']) = none := by
  unfold parseString at h ⊢
  by_cases h1 : headIs '"' x
  · rw [if_pos h1] at h
    obtain ⟨cs, rfl⟩ : ∃ cs, x = '"' :: cs := ⟨x.tail, headIs_eq h1⟩
    simp only [List.tail_cons] at h ⊢
    by_cases h2 : headIs '"' (cs.dropWhile (fun c => c ≠ '"'))
    · rw [if_pos h2] at h
      simp at h
    · have hnil : cs.dropWhile (fun c => c ≠ '"') = [] := by
        cases hd2 : cs.dropWhile (fun c => c ≠ '"') with
        | nil => rfl
        | cons d dr =>
          have hpd := dropWhile_head_not hd2
          simp only [decide_eq_false_iff_not, not_not] at hpd
          rw [hd2, hpd] at h2
          simp [headIs] at h2
      simp only [List.cons_append]
      rw [if_pos (by simp [headIs]), List.tail_cons]
      have hdall : (cs ++ [')']).dropWhile (fun c => c ≠ '"') = [] := by
        rw [List.dropWhile_append, hnil]
        simp [List.dropWhile]
      rw [hdall]
      simp [headIs]
  · rw [if_neg h1] at h
    rw [if_neg (by
      intro hcon
      cases x with
      | nil => simp [headIs] at hcon
      | cons c cs =>
        rw [headIs_append [')'] (by simp)] at hcon
        exact h1 hcon)]

theorem parseSymbol_ext {x r : List Char} {a : Atom}
    (h : parseSymbol x = some (r, a)) :
    parseSymbol (x ++ [')']) = some (r ++ [')'], a) := by
  have hsc : isSymbolCont ')' = false := by decide
  match x with
  | [] => simp [parseSymbol] at h
  | c :: rest =>
    simp only [parseSymbol] at h
    by_cases h1 : isSymbolStart c
    · rw [if_pos h1] at h
      simp only [Option.some.injEq, Prod.mk.injEq] at h
      obtain ⟨h2, h3⟩ := h
      simp only [List.cons_append, parseSymbol]
      rw [if_pos h1]
      rw [takeWhile_append_false hsc, dropWhile_append_false hsc]
      simp only [Option.some.injEq, Prod.mk.injEq]
      exact ⟨by rw [h2], h3⟩
    · rw [if_neg h1] at h
      simp at h

theorem parseAtom_ext {x r : List Char} {a : Atom}
    (h : parseAtom x = some (r, a)) :
    parseAtom (x ++ [')']) = some (r ++ [')'], a) := by
  unfold parseAtom at h ⊢
  cases hn : parseNumber x with
  | some v =>
    rw [hn] at h
    cases h
    rw [parseNumber_ext hn]
  | none =>
    rw [hn] at h
    rw [parseNumber_fail_ext hn]
    cases hs : parseString x with
    | some v =>
      rw [hs] at h
      cases h
      rw [parseString_ext hs]
    | none =>
      rw [hs] at h
      rw [parseString_fail_ext hs]
      exact parseSymbol_ext h

/-- What an atom can start with: a successful parse_atom input begins with
a digit, a double quote, or a symbol-start character; in particular not
with a semicolon, an apostrophe, a paren, or a dot, and it is nonempty. -/
theorem parseAtom_ok_head {x : List Char} {p : List Char × Atom}
    (h : parseAtom x = some p) :
    ∃ c cs, x = c :: cs ∧
      (c.isDigit = true ∨ c = '"' ∨ isSymbolStart c = true) := by
  unfold parseAtom at h
  cases hn : parseNumber x with
  | some v =>
    unfold parseNumber at hn
    by_cases h1 : (x.takeWhile Char.isDigit).isEmpty
    · rw [if_pos h1] at hn; simp at hn
    · match hx : x with
      | [] => simp at h1
      | c :: cs =>
        refine ⟨c, cs, rfl, Or.inl ?_⟩
        by_cases hd : c.isDigit
        · exact hd
        · rw [List.takeWhile_cons, if_neg (by simp [hd])] at h1
          simp at h1
  | none =>
    rw [hn] at h
    cases hs : parseString x with
    | some v =>
      unfold parseString at hs
      by_cases h1 : headIs '"' x
      · obtain ⟨cs, hx⟩ : ∃ cs, x = '"' :: cs := ⟨x.tail, headIs_eq h1⟩
        exact ⟨'"', cs, hx, Or.inr (Or.inl rfl)⟩
      · rw [if_neg h1] at hs; simp at hs
    | none =>
      rw [hs] at h
      match x with
      | [] => simp [parseSymbol] at h
      | c :: cs =>
        by_cases h1 : isSymbolStart c
        · exact ⟨c, cs, rfl, Or.inr (Or.inr h1)⟩
        · simp [parseSymbol, h1] at h

/-- Atom-start characters are not special: not a semicolon, apostrophe,
paren or dot. -/
theorem atom_head_not_special {c : Char}
    (h : c.isDigit = true ∨ c = '"' ∨ isSymbolStart c = true) :
    c ≠ ';' ∧ c ≠ '\'' ∧ c ≠ '(' ∧ c ≠ ')' ∧ c ≠ '.' := by
  rcases h with h | h | h
  · refine ⟨?_, ?_, ?_, ?_, ?_⟩ <;> (intro hc; rw [hc] at h; simp [Char.isDigit] at h)
  · subst h
    refine ⟨by decide, by decide, by decide, by decide, by decide⟩
  · refine ⟨?_, ?_, ?_, ?_, ?_⟩ <;>
      (intro hc; rw [hc] at h; simp [isSymbolStart, Char.isAlpha, Char.isUpper, Char.isLower] at h)

/-- A successful parse_quoted input begins with an apostrophe. -/
theorem parseQuoted_ok_head {n : Nat} {i r : List Char} {e : Sexpr}
    (h : parseQuoted n i = .ok r e) : headIs '\'' i = true := by
  match n with
  | 0 => simp [parseQuoted] at h
  | n + 1 =>
    by_cases hq : headIs '\'' i
    · exact hq
    · simp [parseQuoted, hq] at h

/-- A successful parse_list input begins (after whitespace) with an opening
paren. -/
theorem parseList_ok_head {n : Nat} {i r : List Char} {e : Sexpr}
    (h : parseList n i = .ok r e) : headIs '(' (ws i) = true := by
  match n with
  | 0 => simp [parseList] at h
  | n + 1 =>
    by_cases hp : headIs '(' (ws i)
    · exact hp
    · simp [parseList, hp] at h

/-- parse_sexpr skips leading whitespace itself, so running it after ws is
the same as running it directly. -/
theorem parseSexpr_ws (n : Nat) (d : List Char) :
    parseSexpr n (ws d) = parseSexpr n d := by
  match n with
  | 0 => rfl
  | n + 1 => simp only [parseSexpr, ws_idem]

/-- Convenient form of ws_append: the whole ws result is stable. -/
theorem ws_append_eq {i : List Char} {c : Char} {cs : List Char}
    (h : ws i = c :: cs) (hc : c ≠ ';') (t : List Char) :
    ws (i ++ t) = ws i ++ t := by
  rw [ws_append h hc, h]
  simp

theorem parseQuoted_fail_of_head {n : Nat} (hne : n ≠ 0) {y : List Char}
    (hy : headIs '\'' y = false) : parseQuoted n y = .fail := by
  match n with
  | 0 => exact absurd rfl hne
  | n + 1 => simp [parseQuoted, hy]

theorem parseList_fail_of_head {n : Nat} (hne : n ≠ 0) {y : List Char}
    (hy : headIs '(' (ws y) = false) : parseList n y = .fail := by
  match n with
  | 0 => exact absurd rfl hne
  | n + 1 => simp [parseList, hy]

/-- A successful parse_sexpr begins, after whitespace, with a character
that is not a semicolon (an apostrophe, an opening paren, or an atom
start). -/
theorem parseSexpr_ok_wshead {n : Nat} {i r : List Char} {e : Sexpr}
    (h : parseSexpr n i = .ok r e) :
    ∃ c cs, ws i = c :: cs ∧ c ≠ ';' ∧ c ≠ ')' ∧ c ≠ '.' := by
  match n with
  | 0 => simp [parseSexpr] at h
  | n + 1 =>
    simp only [parseSexpr] at h
    cases h0 : parseQuoted n (ws i) with
    | ok r0 e0 =>
      have hq := parseQuoted_ok_head h0
      exact ⟨'\'', (ws i).tail, headIs_eq hq, by decide, by decide, by decide⟩
    | out => simp [h0] at h
    | fail =>
      simp only [h0] at h
      cases h1 : parseList n (ws i) with
      | ok r0 e0 =>
        have hp := parseList_ok_head h1
        rw [ws_idem] at hp
        exact ⟨'(', (ws i).tail, headIs_eq hp, by decide, by decide, by decide⟩
      | out => simp [h1] at h
      | fail =>
        simp only [h1] at h
        cases h2 : parseAtom (ws i) with
        | some v =>
          obtain ⟨c, cs, hcc, hkind⟩ := parseAtom_ok_head h2
          obtain ⟨hs1, _, _, hs4, hs5⟩ := atom_head_not_special hkind
          exact ⟨c, cs, hcc, hs1, hs4, hs5⟩
        | none => simp [h2] at h

/-- A successful element loop begins, after whitespace, with a character
that is not a semicolon (a stop character or an expression start). -/
theorem parseListElems_ok_head {n : Nat} {x r : List Char} {es : List Sexpr}
    (h : parseListElems n x = .ok r es) :
    ∃ c cs, ws x = c :: cs ∧ c ≠ ';' := by
  match n with
  | 0 => simp [parseListElems] at h
  | n + 1 =>
    by_cases hstop : startsWithStop (ws x)
    · match hw : ws x with
      | [] => rw [hw] at hstop; simp [startsWithStop] at hstop
      | c :: cs =>
        rw [hw] at hstop
        simp only [startsWithStop, Bool.or_eq_true, decide_eq_true_eq] at hstop
        refine ⟨c, cs, rfl, ?_⟩
        rcases hstop with hc | hc <;> (subst hc; decide)
    · simp only [parseListElems, hstop, if_false, Bool.false_eq_true] at h
      cases h0 : parseSexpr n x with
      | ok next e =>
        obtain ⟨c, cs, hwc, hc, _, _⟩ := parseSexpr_ok_wshead h0
        exact ⟨c, cs, hwc, hc⟩
      | fail => simp [h0] at h
      | out => simp [h0] at h

theorem parser_ext (n : Nat) :
    (∀ i r e, parseQuoted n i = .ok r e →
      parseQuoted n (i ++ [')']) = .ok (r ++ [')']) e) ∧
    (∀ i r e, parseList n i = .ok r e →
      parseList n (i ++ [')']) = .ok (r ++ [')']) e) ∧
    (∀ i r es, parseListElems n i = .ok r es →
      parseListElems n (i ++ [')']) = .ok (r ++ [')']) es) ∧
    (∀ i r e, parseSexpr n i = .ok r e →
      parseSexpr n (i ++ [')']) = .ok (r ++ [')']) e) := by
  induction n with
  | zero =>
    refine ⟨fun i r e h => ?_, fun i r e h => ?_, fun i r es h => ?_,
      fun i r e h => ?_⟩ <;>
      simp [parseQuoted, parseList, parseListElems, parseSexpr] at h
  | succ n ih =>
    obtain ⟨ihq, ihl, ihe, ihs⟩ := ih
    refine ⟨?_, ?_, ?_, ?_⟩
    · -- parseQuoted
      intro i r e h
      have hq := parseQuoted_ok_head h
      obtain ⟨cs, rfl⟩ : ∃ cs, i = '\'' :: cs := ⟨i.tail, headIs_eq hq⟩
      simp only [parseQuoted, List.cons_append, List.tail_cons] at h ⊢
      rw [if_pos (by simp [headIs])] at h
      rw [if_pos (by simp [headIs])]
      cases h0 : parseSexpr n cs with
      | ok r0 e0 =>
        simp only [h0] at h
        injection h with h1 h2
        simp only [ihs cs r0 e0 h0]
        simp [h1, h2]
      | fail => simp [h0] at h
      | out => simp [h0] at h
    · -- parseList
      intro i r e h
      have hp := parseList_ok_head h
      obtain ⟨w1, hw1⟩ : ∃ w1, ws i = '(' :: w1 := ⟨(ws i).tail, headIs_eq hp⟩
      have hwsapp : ws (i ++ [')']) = '(' :: (w1 ++ [')']) :=
        ws_append hw1 (by decide)
      simp only [parseList] at h ⊢
      rw [hw1] at h
      rw [hwsapp]
      rw [if_pos (by simp [headIs])] at h
      rw [if_pos (by simp [headIs])]
      simp only [List.tail_cons] at h ⊢
      by_cases hcl : headIs ')' (ws w1)
      · obtain ⟨jr, hjr⟩ : ∃ jr, ws w1 = ')' :: jr := ⟨(ws w1).tail, headIs_eq hcl⟩
        have hjr2 : ws (w1 ++ [')']) = ')' :: (jr ++ [')']) :=
          ws_append hjr (by decide)
        rw [if_pos hcl] at h
        rw [if_pos (by rw [hjr2]; simp [headIs])]
        rw [hjr2]
        rw [hjr] at h
        simp only [List.tail_cons] at h ⊢
        injection h with h1 h2
        rw [h1, h2]
      · rw [if_neg hcl] at h
        cases h0 : parseListElems n w1 with
        | out => simp [h0] at h
        | fail => simp [h0] at h
        | ok cur elems =>
          simp only [h0] at h
          obtain ⟨c0, cs0, hwc0, hc0⟩ := parseListElems_ok_head h0
          have hwapp0 : ws (w1 ++ [')']) = ws w1 ++ [')'] := ws_append_eq hwc0 hc0 [')']
          rw [if_neg (by
            rw [hwapp0, hwc0]
            simp only [List.cons_append, headIs]
            rw [hwc0] at hcl
            simpa [headIs] using hcl)]
          simp only [ihe w1 cur elems h0]
          by_cases hdot : headIs '.' (ws cur)
          · obtain ⟨dr, hdr⟩ : ∃ dr, ws cur = '.' :: dr := ⟨(ws cur).tail, headIs_eq hdot⟩
            have hdr2 : ws (cur ++ [')']) = '.' :: (dr ++ [')']) :=
              ws_append hdr (by decide)
            rw [if_pos hdot] at h
            rw [if_pos (by rw [hdr2]; simp [headIs])]
            rw [hdr] at h
            rw [hdr2]
            simp only [List.tail_cons] at h ⊢
            cases h1 : parseSexpr n (ws dr) with
            | out => simp [h1] at h
            | fail => simp [h1] at h
            | ok r1 fin =>
              simp only [h1] at h
              have h1' : parseSexpr n dr = .ok r1 fin := by
                rw [← parseSexpr_ws n dr]; exact h1
              have hext1 : parseSexpr n (dr ++ [')']) = .ok (r1 ++ [')']) fin :=
                ihs dr r1 fin h1'
              have hext1' : parseSexpr n (ws (dr ++ [')'])) = .ok (r1 ++ [')']) fin := by
                rw [parseSexpr_ws]; exact hext1
              simp only [hext1']
              by_cases hcl2 : headIs ')' (ws r1)
              · obtain ⟨rr, hrr⟩ : ∃ rr, ws r1 = ')' :: rr := ⟨(ws r1).tail, headIs_eq hcl2⟩
                have hrr2 : ws (r1 ++ [')']) = ')' :: (rr ++ [')']) :=
                  ws_append hrr (by decide)
                rw [if_pos hcl2] at h
                rw [if_pos (by rw [hrr2]; simp [headIs])]
                rw [hrr] at h
                rw [hrr2]
                simp only [List.tail_cons] at h ⊢
                injection h with h1 h2
                rw [h1, h2]
              · rw [if_neg hcl2] at h
                simp at h
          · rw [if_neg hdot] at h
            by_cases hcl2 : headIs ')' (ws cur)
            · obtain ⟨rr, hrr⟩ : ∃ rr, ws cur = ')' :: rr := ⟨(ws cur).tail, headIs_eq hcl2⟩
              have hrr2 : ws (cur ++ [')']) = ')' :: (rr ++ [')']) :=
                ws_append hrr (by decide)
              rw [if_pos hcl2] at h
              rw [if_neg (by rw [hrr2]; simp [headIs])]
              rw [if_pos (by rw [hrr2]; simp [headIs])]
              rw [hrr] at h
              rw [hrr2]
              simp only [List.tail_cons] at h ⊢
              injection h with h1 h2
              rw [h1, h2]
            · rw [if_neg hcl2] at h
              simp at h
    · -- parseListElems
      intro i r es h
      by_cases hstop : startsWithStop (ws i)
      · simp only [parseListElems, hstop, if_true] at h
        injection h with h1 h2
        match hw : ws i with
        | [] => rw [hw] at hstop; simp [startsWithStop] at hstop
        | c :: cs =>
          rw [hw] at hstop
          simp only [startsWithStop, Bool.or_eq_true, decide_eq_true_eq] at hstop
          have hc : c ≠ ';' := by rcases hstop with hc | hc <;> (subst hc; decide)
          have hwapp : ws (i ++ [')']) = c :: (cs ++ [')']) := ws_append hw hc
          simp only [parseListElems]
          rw [if_pos (by
            rw [hwapp]
            simp only [startsWithStop, Bool.or_eq_true, decide_eq_true_eq]
            exact hstop)]
          rw [hwapp, ← h1, hw, ← h2]
          simp
      · simp only [parseListElems, hstop, if_false, Bool.false_eq_true] at h
        cases h0 : parseSexpr n i with
        | out => simp [h0] at h
        | fail => simp [h0] at h
        | ok next e =>
          simp only [h0] at h
          obtain ⟨c, cs, hwc, hc, _, _⟩ := parseSexpr_ok_wshead h0
          have hwapp : ws (i ++ [')']) = c :: (cs ++ [')']) := ws_append hwc hc
          simp only [parseListElems]
          rw [if_neg (by
            rw [hwapp]
            rw [hwc] at hstop
            simpa [startsWithStop] using hstop)]
          simp only [ihs i next e h0]
          cases h1 : parseListElems n next with
          | out => simp [h1] at h
          | fail => simp [h1] at h
          | ok r0 es0 =>
            simp only [h1] at h
            injection h with h2 h3
            simp only [ihe next r0 es0 h1]
            simp [h2, h3]
    · -- parseSexpr
      intro i r e h
      simp only [parseSexpr] at h ⊢
      cases h0 : parseQuoted n (ws i) with
      | ok r0 e0 =>
        simp only [h0] at h
        injection h with h1 h2
        have hq := parseQuoted_ok_head h0
        obtain ⟨cs, hcs⟩ : ∃ cs, ws i = '\'' :: cs := ⟨(ws i).tail, headIs_eq hq⟩
        have hwsapp : ws (i ++ [')']) = ws i ++ [')'] := ws_append_eq hcs (by decide) [')']
        rw [hwsapp]
        simp only [ihq (ws i) r0 e0 h0]
        simp [h1, h2]
      | out => simp [h0] at h
      | fail =>
        simp only [h0] at h
        have hn0 : n ≠ 0 := by
          intro hn
          rw [hn] at h0
          simp [parseQuoted] at h0
        cases h1 : parseList n (ws i) with
        | ok r0 e0 =>
          simp only [h1] at h
          injection h with h2 h3
          have hp := parseList_ok_head h1
          rw [ws_idem] at hp
          obtain ⟨cs, hcs⟩ : ∃ cs, ws i = '(' :: cs := ⟨(ws i).tail, headIs_eq hp⟩
          have hwsapp : ws (i ++ [')']) = ws i ++ [')'] := ws_append_eq hcs (by decide) [')']
          rw [hwsapp]
          simp only [@parseQuoted_fail_of_head n hn0 (ws i ++ [')'])
            (by rw [hcs]; simp [headIs])]
          simp only [ihl (ws i) r0 e0 h1]
          simp [h2, h3]
        | out => simp [h1] at h
        | fail =>
          simp only [h1] at h
          cases h2 : parseAtom (ws i) with
          | none => simp [h2] at h
          | some v =>
            match v with
            | (r0, a0) =>
              simp only [h2] at h
              injection h with h3 h4
              obtain ⟨c, cs, hcs, hkind⟩ := parseAtom_ok_head h2
              obtain ⟨hns, hnq, hnp, hnr, hnd⟩ := atom_head_not_special hkind
              have hwsapp : ws (i ++ [')']) = ws i ++ [')'] := ws_append_eq hcs hns [')']
              rw [hwsapp]
              simp only [@parseQuoted_fail_of_head n hn0 (ws i ++ [')']) (by
                rw [hcs]
                simp only [List.cons_append, headIs]
                simp [hnq])]
              simp only [@parseList_fail_of_head n hn0 (ws i ++ [')']) (by
                have hid : ws (ws i ++ [')']) = c :: (cs ++ [')']) := by
                  have hidem : ws (ws i) = c :: cs := by rw [ws_idem, hcs]
                  exact ws_append hidem hns
                rw [hid]
                simp only [headIs]
                simp [hnp])]
              simp only [parseAtom_ext h2]
              simp [h3, h4]

/-! ## Quote equivalence (claim C7)

parse applied to the sugar form apostrophe-X and to the textual form
(quote X) produce identical trees: the two-element proper list whose head
is the symbol quote and whose second element is the parse of X. -/

/-- parse_sexpr looks at its input only through ws. -/
theorem parseSexpr_congr_ws {y1 y2 : List Char} (n : Nat) (h : ws y1 = ws y2) :
    parseSexpr n y1 = parseSexpr n y2 := by
  match n with
  | 0 => rfl
  | n + 1 => simp only [parseSexpr, h]

/-- Empty input is a recoverable failure of parse_sexpr, with enough fuel
to see both the quoted and the list alternatives fail. -/
theorem parseSexpr_nil_fail {n : Nat} (h : 2 ≤ n) : parseSexpr n [] = .fail := by
  obtain ⟨m, rfl⟩ : ∃ m, n = m + 1 + 1 := ⟨n - 2, by omega⟩
  simp [parseSexpr, parseQuoted, parseList, parseAtom, parseNumber,
        parseString, parseSymbol, ws, wsGo, headIs]

/-- One unfolding step of the toplevel parse loop. -/
theorem parse_step {n : Nat} {i : List Char} :
    parse (n + 1) i = (match parseSexpr n i with
      | .out => .out
      | .fail => .ok i []
      | .ok rest e =>
        if rest.length = i.length then .fail
        else match parse n rest with
          | .out => .out
          | .fail => .fail
          | .ok r es => .ok r (e :: es)) := rfl

/-- The sugar side: an apostrophe prefix wraps the parse of X into the
list (quote X). -/
theorem parseSexpr_quote_sugar {k : Nat} {X : List Char} {e : Sexpr}
    (h : parseSexpr k X = .ok [] e) :
    parseSexpr (k + 1 + 1) ('\'' :: X) =
      .ok [] (.list [.atom (.symbol "quote"), e]) := by
  have hws : ws ('\'' :: X) = '\'' :: X :=
    ws_stop (by decide) (fun hc => absurd hc (by decide))
  have hq : parseQuoted (k + 1) ('\'' :: X) =
      .ok [] (.list [.atom (.symbol "quote"), e]) := by
    simp only [parseQuoted]
    rw [if_pos (by simp [headIs])]
    simp only [List.tail_cons, h]
  simp only [parseSexpr, hws, hq]

/-- A parse_sexpr that consumes its whole input makes the toplevel parse
return exactly that one expression. -/
theorem parse_single {k : Nat} {y : List Char} {e : Sexpr}
    (h : parseSexpr k y = .ok [] e) :
    parse (k + 1 + 1 + 1 + 1) y = .ok [] [e] := by
  have hk : 1 ≤ k := by
    cases k with
    | zero => simp [parseSexpr] at h
    | succ k => omega
  have hy : 0 < y.length := by
    have hc := parseSexpr_consume h
    simpa using hc
  have h3 : parseSexpr (k + 1 + 1 + 1) y = .ok [] e :=
    (parseSexpr_mono (by omega) (by rw [h]; simp)).trans h
  have hnil : parseSexpr (k + 1 + 1) [] = .fail := parseSexpr_nil_fail (by omega)
  simp only [parse_step, h3, hnil, List.length_nil]
  rw [if_neg (by omega)]

/-- One unfolding step of the element loop. -/
theorem parseListElems_step {n : Nat} {i : List Char} :
    parseListElems (n + 1) i = (if startsWithStop (ws i) then .ok (ws i) []
      else match parseSexpr n i with
        | .out => .out
        | .fail => .fail
        | .ok next e =>
          match parseListElems n next with
          | .out => .out
          | .fail => .fail
          | .ok r es => .ok r (e :: es)) := rfl

/-- The textual side: an opening paren, the literal symbol quote, a space,
X and a closing paren read as the same two-element list. -/
theorem parseSexpr_quote_text {k : Nat} {X : List Char} {e : Sexpr}
    (h : parseSexpr k X = .ok [] e) :
    parseSexpr (k + 1 + 1 + 1 + 1 + 1)
        ('(' :: 'q' :: 'u' :: 'o' :: 't' :: 'e' :: ' ' :: (X ++ [')'])) =
      .ok [] (.list [.atom (.symbol "quote"), e]) := by
  obtain ⟨c, cs, hwc, hc1, hc2, hc3⟩ := parseSexpr_ok_wshead h
  have hXt : parseSexpr k (X ++ [')']) = .ok [')'] e := by
    have hext := (parser_ext k).2.2.2 X [] e h
    simpa using hext
  have hwXt : ws (X ++ [')']) = c :: (cs ++ [')']) := ws_append hwc hc1
  have hwp : ws [')'] = [')'] :=
    ws_stop (by decide) (fun hc => absurd hc (by decide))
  have hrest : ws ('q' :: 'u' :: 'o' :: 't' :: 'e' :: ' ' :: (X ++ [')'])) =
      'q' :: 'u' :: 'o' :: 't' :: 'e' :: ' ' :: (X ++ [')']) :=
    ws_stop (by decide) (fun hc => absurd hc (by decide))
  have hT : ws ('(' :: 'q' :: 'u' :: 'o' :: 't' :: 'e' :: ' ' :: (X ++ [')'])) =
      '(' :: 'q' :: 'u' :: 'o' :: 't' :: 'e' :: ' ' :: (X ++ [')']) :=
    ws_stop (by decide) (fun hc => absurd hc (by decide))
  have hwsp : ws (' ' :: (X ++ [')'])) = c :: (cs ++ [')']) := by
    rw [@ws_space ' ' (X ++ [')']) (by decide), hwXt]
  have hatom : parseAtom ('q' :: 'u' :: 'o' :: 't' :: 'e' :: ' ' :: (X ++ [')'])) =
      some (' ' :: (X ++ [')']), .symbol "quote") := by
    simp [parseAtom, parseNumber, parseString, parseSymbol,
          isSymbolStart, isSymbolCont, headIs, List.takeWhile_cons,
          List.dropWhile_cons]
  have hsym : parseSexpr (k + 1 + 1)
      ('q' :: 'u' :: 'o' :: 't' :: 'e' :: ' ' :: (X ++ [')'])) =
      .ok (' ' :: (X ++ [')'])) (.atom (.symbol "quote")) := by
    have hqf : parseQuoted (k + 1)
        ('q' :: 'u' :: 'o' :: 't' :: 'e' :: ' ' :: (X ++ [')'])) = .fail :=
      parseQuoted_fail_of_head (by omega) (by simp [headIs])
    have hlf : parseList (k + 1)
        ('q' :: 'u' :: 'o' :: 't' :: 'e' :: ' ' :: (X ++ [')'])) = .fail :=
      parseList_fail_of_head (by omega) (by rw [hrest]; simp [headIs])
    simp only [parseSexpr, hrest, hqf, hlf, hatom]
  have helems1 : parseListElems (k + 1) [')'] = .ok [')'] [] := by
    simp [parseListElems, hwp, startsWithStop]
  have hXt1 : parseSexpr (k + 1) (' ' :: (X ++ [')'])) = .ok [')'] e := by
    rw [parseSexpr_congr_ws (k + 1)
      (show ws (' ' :: (X ++ [')'])) = ws (X ++ [')']) from
        @ws_space ' ' (X ++ [')']) (by decide))]
    exact (parseSexpr_mono (by omega) (by rw [hXt]; simp)).trans hXt
  have helems2 : parseListElems (k + 1 + 1) (' ' :: (X ++ [')'])) =
      .ok [')'] [e] := by
    have hstop : startsWithStop (ws (' ' :: (X ++ [')']))) = false := by
      rw [hwsp]; simp [startsWithStop, hc2, hc3]
    rw [parseListElems_step]
    simp only [hstop, Bool.false_eq_true, if_false, hXt1, helems1]
  have helems3 : parseListElems (k + 1 + 1 + 1)
      ('q' :: 'u' :: 'o' :: 't' :: 'e' :: ' ' :: (X ++ [')'])) =
      .ok [')'] [.atom (.symbol "quote"), e] := by
    have hstop : startsWithStop
        (ws ('q' :: 'u' :: 'o' :: 't' :: 'e' :: ' ' :: (X ++ [')'])))= false := by
      rw [hrest]; simp [startsWithStop]
    rw [parseListElems_step]
    simp only [hstop, Bool.false_eq_true, if_false, hsym, helems2]
  have hlist : parseList (k + 1 + 1 + 1 + 1)
      ('(' :: 'q' :: 'u' :: 'o' :: 't' :: 'e' :: ' ' :: (X ++ [')'])) =
      .ok [] (.list [.atom (.symbol "quote"), e]) := by
    simp [parseList, hT, hrest, hwp, helems3, headIs]
  have hqf2 : parseQuoted (k + 1 + 1 + 1 + 1)
      ('(' :: 'q' :: 'u' :: 'o' :: 't' :: 'e' :: ' ' :: (X ++ [')'])) = .fail :=
    parseQuoted_fail_of_head (by omega) (by simp [headIs])
  simp only [parseSexpr, hT, hqf2, hlist]

/-- Claim C7: for every expression X — any input text that parse_sexpr
reads completely, producing the tree e — the sugar form apostrophe-X and
the textual form (quote X) parse to identical ASTs: both toplevel parses
return exactly the two-element proper list whose head is the symbol atom
quote and whose second element is e. -/
theorem claim_C7_quote_equivalence {n : Nat} {X : List Char} {e : Sexpr}
    {m : Nat} (h : parseSexpr n X = .ok [] e) (hm : n + 9 ≤ m) :
    parse m ('\'' :: X) = .ok [] [.list [.atom (.symbol "quote"), e]] ∧
    parse m ('(' :: 'q' :: 'u' :: 'o' :: 't' :: 'e' :: ' ' :: (X ++ [')'])) =
      .ok [] [.list [.atom (.symbol "quote"), e]] := by
  have h3 : parseSexpr (n + 1 + 1 + 1) X = .ok [] e :=
    (parseSexpr_mono (by omega) (by rw [h]; simp)).trans h
  have hs := parseSexpr_quote_sugar h3
  have hps := parse_single hs
  have ht := parseSexpr_quote_text h
  have hpt := parse_single ht
  constructor
  · exact (parse_mono (by omega) (by rw [hps]; simp)).trans hps
  · exact (parse_mono (by omega) (by rw [hpt]; simp)).trans hpt

/-- Witness for C7: the quoted symbol x in both spellings parses to the
list (quote x). -/
theorem claim_C7_quote_equivalence_witness :
    parse 11 ['\'', 'x'] =
      .ok [] [.list [.atom (.symbol "quote"), .atom (.symbol "x")]] ∧
    parse 11 ['(', 'q', 'u', 'o', 't', 'e', ' ', 'x', ')'] =
      .ok [] [.list [.atom (.symbol "quote"), .atom (.symbol "x")]] :=
  @claim_C7_quote_equivalence 2 ['x'] (.atom (.symbol "x")) 11 rfl (by decide)

/-! ## Toplevel corollaries for claims C3, C4 and C6 -/

/-- Toplevel form of the reader invariant: every tree in a successful
parse result satisfies noEmptyList. -/
theorem parse_wf : ∀ (n : Nat) (i r : List Char) (es : List Sexpr),
    parse n i = .ok r es → noEmptyListAll es = true := by
  intro n
  induction n with
  | zero => intro i r es h; simp [parse] at h
  | succ n ih =>
    intro i r es h
    rw [parse_step] at h
    cases h0 : parseSexpr n i with
    | out => simp [h0] at h
    | fail =>
      simp only [h0] at h
      cases h
      rfl
    | ok rest e =>
      simp only [h0] at h
      by_cases hlen : rest.length = i.length
      · simp [hlen] at h
      · rw [if_neg hlen] at h
        cases h1 : parse n rest with
        | out => simp [h1] at h
        | fail => simp [h1] at h
        | ok r0 es0 =>
          simp only [h1] at h
          cases h
          have he := (parser_wf n).2.2.2 i rest e h0
          have hes := ih rest r es0 h1
          simp [noEmptyListAll, he, hes]

mutual

/-- The reader invariant as the specification words it (claim C6): at
every node, a proper list is nonempty and a dotted list has a nonempty
head sequence. -/
def specNodeInv : Sexpr → Bool
  | .atom _ => true
  | .list es => !es.isEmpty && specNodeInvAll es
  | .dottedList es t => !es.isEmpty && specNodeInvAll es && specNodeInv t

/-- Conjunction of specNodeInv over a list of subtrees. -/
def specNodeInvAll : List Sexpr → Bool
  | [] => true
  | e :: es => specNodeInv e && specNodeInvAll es

end

/-- Claim C3 (amended): the whitespace skipper always succeeds, consuming
a prefix made of whitespace characters and nonempty line comments
(WsSteps), and the remainder — a suffix of the input — starts with no
further consumable chunk, so the consumed prefix is maximal.  The
empty-comment half of the written claim is refuted by the counterexample
exhibiting an unconsumed bare semicolon. -/
theorem claim_C3_ws_maximal_prefix (input : List Char) :
    WsSteps input (ws input) ∧ noWsChunk (ws input) ∧
      (ws input).IsSuffix input :=
  ⟨ws_wsSteps input, ws_noWsChunk input, ws_suffix input⟩

/-- Counterexample to C3 as written: an empty comment — a semicolon at end
of input or directly before a newline — is not consumed, because nom's
is_not demands at least one comment-body character. -/
theorem claim_C3_counterexample :
    ws [';'] = [';'] ∧ ws [' ', ';', '\n'] = [';', '\n'] := ⟨rfl, rfl⟩

/-- Claim C4: the toplevel parse is total — for every input text, with
fuel beyond the structural recursion bound, it returns ok: the sequence of
leading well-formed expressions together with the unconsumed remainder,
never an error. -/
theorem claim_C4_parse_never_fails (input : List Char) {fuel : Nat}
    (h : 4 * input.length + 3 < fuel) :
    ∃ r es, parse fuel input = .ok r es :=
  parse_total fuel input h

/-- Witness for C4: an input whose tail is a stray closing paren still
parses to ok. -/
theorem claim_C4_parse_never_fails_witness :
    4 * (['x', ' ', ')'] : List Char).length + 3 < 16 ∧
    ∃ r es, parse 16 ['x', ' ', ')'] = .ok r es :=
  ⟨by decide, claim_C4_parse_never_fails ['x', ' ', ')'] (by decide)⟩

/-- Claim C6 (amended): every tree returned by the toplevel parse has no
empty proper-list node — the source text () is normalised to Atom.nil at
parse time.  The dotted-list half of the written claim is refuted by the
counterexample below. -/
theorem claim_C6_no_empty_list {n : Nat} {i r : List Char} {es : List Sexpr}
    (h : parse n i = .ok r es) : noEmptyListAll es = true :=
  parse_wf n i r es h

/-- Witness for C6: a one-element list parses and satisfies the
invariant. -/
theorem claim_C6_no_empty_list_witness :
    parse 20 ['(', 'x', ')'] = .ok [] [.list [.atom (.symbol "x")]] ∧
    noEmptyListAll [.list [.atom (.symbol "x")]] = true :=
  ⟨rfl, claim_C6_no_empty_list (rfl :
    parse 20 ['(', 'x', ')'] = .ok [] [.list [.atom (.symbol "x")]])⟩

/-- Counterexample to C6 as written: the text (. x) parses to a dotted
list with an empty head sequence, violating the claimed DottedList
invariant. -/
theorem claim_C6_counterexample :
    parse 24 ['(', '.', ' ', 'x', ')'] =
      .ok [] [.dottedList [] (.atom (.symbol "x"))] ∧
    specNodeInv (.dottedList [] (.atom (.symbol "x"))) = false :=
  ⟨rfl, rfl⟩

/-! ## Runtime values and environments (evaluator/value.rs)

Value and Environment are mutually recursive: a Lambda stores its closure
environment, and an environment binds names to values.  Rust's
HashMap<String, Value> is modelled as an association list where insert
conses the new binding at the front and lookup takes the first hit — the
observable get/contains_key behaviour of the map.  Rc sharing is invisible
to the pure semantics; Environment::clone is the identity.  The parent
field Option<Rc<Environment>> becomes the two constructors root and
child. -/

/-- The seven primitive functions installed by create_global_env
(builtins.rs); a Rust fn pointer held by Value::Primitive is always one of
these. -/
inductive PrimFn where
  | pcons
  | pcar
  | pcdr
  | pnull
  | pequal
  | passoc
  | pgroupBy

/-- EvalError from value.rs. -/
inductive EvalError where
  | undefinedVariable (name : String)
  | typeError (msg : String)
  | arityError (expected : String) (got : Nat)
  | runtimeError (msg : String)

mutual

/-- Value from value.rs. -/
inductive Value where
  | nil : Value
  | bool (b : Bool) : Value
  | number (n : Int) : Value
  | string (s : String) : Value
  | symbol (s : String) : Value
  | cons (car cdr : Value) : Value
  | primitive (p : PrimFn) : Value
  | lambda (params : List String) (body : List Sexpr) (closure : Env) : Value

/-- Environment from value.rs: a frame of bindings with an optional
parent. -/
inductive Env where
  | root (bindings : List (String × Value)) : Env
  | child (bindings : List (String × Value)) (parent : Env) : Env

end

/-- HashMap::get on the binding list: first hit wins. -/
def lookupBindings : List (String × Value) → String → Option Value
  | [], _ => none
  | (k, v) :: rest, name => if k = name then some v else lookupBindings rest name

/-- HashMap::contains_key on the binding list. -/
def containsKey (b : List (String × Value)) (name : String) : Bool :=
  match lookupBindings b name with
  | some _ => true
  | none => false

/-- The binding frame of an environment. -/
def Env.bindings : Env → List (String × Value)
  | .root b => b
  | .child b _ => b

/-- The parent of an environment, if any. -/
def Env.parent : Env → Option Env
  | .root _ => none
  | .child _ p => some p

/-- Environment::define from value.rs: insert into the current frame. -/
def Env.define (env : Env) (name : String) (value : Value) : Env :=
  match env with
  | .root b => .root ((name, value) :: b)
  | .child b p => .child ((name, value) :: b) p

/-- Environment::get from value.rs: current frame first, then the parent
chain. -/
def Env.get : Env → String → Option Value
  | .root b, name => lookupBindings b name
  | .child b p, name =>
    match lookupBindings b name with
    | some v => some v
    | none => Env.get p name

/-- Environment::set from value.rs: update only if the name is bound in
the current frame; a name bound only in an ancestor, or nowhere, is an
undefined-variable error (mutation of parent environments is not
supported). -/
def Env.set (env : Env) (name : String) (value : Value) :
    Except EvalError Env :=
  match env with
  | .root b =>
    if containsKey b name then .ok (.root ((name, value) :: b))
    else .error (.undefinedVariable name)
  | .child b p =>
    if containsKey b name then .ok (.child ((name, value) :: b) p)
    else .error (.undefinedVariable name)

/-- The PartialEq instance of Value (value.rs): structural, with both
function forms never equal — not even to themselves. -/
def valuePartialEq : Value → Value → Bool
  | .nil, .nil => true
  | .bool a, .bool b => a = b
  | .number a, .number b => a = b
  | .string a, .string b => a = b
  | .symbol a, .symbol b => a = b
  | .cons carA cdrA, .cons carB cdrB =>
    valuePartialEq carA carB && valuePartialEq cdrA cdrB
  | .primitive _, .primitive _ => false
  | .lambda _ _ _, .lambda _ _ _ => false
  | _, _ => false

/-- values_equal from builtins.rs: structural equality used by the equal?
and assoc builtins; functions fall into the catch-all and are never
equal. -/
def valuesEqual : Value → Value → Bool
  | .nil, .nil => true
  | .bool a, .bool b => a = b
  | .number a, .number b => a = b
  | .string a, .string b => a = b
  | .symbol a, .symbol b => a = b
  | .cons carA cdrA, .cons carB cdrB =>
    valuesEqual carA carB && valuesEqual cdrA cdrB
  | _, _ => false

/-- A function value: Primitive or Lambda (claim C10). -/
def isFunction : Value → Bool
  | .primitive _ => true
  | .lambda _ _ _ => true
  | _ => false

mutual

/-- The Display instance of Value (value.rs). -/
def displayValue : Value → String
  | .nil => "()"
  | .bool b => if b then "#t" else "#f"
  | .number n => toString n
  | .string s => "\"" ++ s ++ "\""
  | .symbol s => s
  | .cons car cdr => "(" ++ displayValue car ++ displayTail cdr ++ ")"
  | .primitive _ => "#<primitive>"
  | .lambda _ _ _ => "#<lambda>"

/-- The loop inside Display for a cons chain. -/
def displayTail : Value → String
  | .nil => ""
  | .cons car cdr => " " ++ displayValue car ++ displayTail cdr
  | v => " . " ++ displayValue v

end

/-- is_truthy from evaluator.rs: everything but Bool(false) and Nil. -/
def isTruthy (v : Value) : Bool :=
  match v with
  | .bool false => false
  | .nil => false
  | _ => true

/-- value_to_string from builtins.rs: the grouping key must be a string,
symbol or number. -/
def valueToString : Value → Except EvalError String
  | .string s => .ok s
  | .symbol s => .ok s
  | .number n => .ok (toString n)
  | _ => .error (.typeError "group-by key must be string, symbol, or number")

/-- list_to_cons core (evaluator.rs): fold the reversed value list into a
cons chain ending in Nil. -/
def valueListToCons (values : List Value) : Value :=
  values.foldr (fun v acc => .cons v acc) .nil

/-- list_to_cons from evaluator.rs: always returns Ok. -/
def listToCons (values : List Value) : Except EvalError Value :=
  .ok (valueListToCons values)

mutual

/-- sexpr_to_value from evaluator.rs: quote-time conversion of syntax to
data, no evaluation. -/
def sexprToValue : Sexpr → Except EvalError Value
  | .atom .nil => .ok .nil
  | .atom (.number n) => .ok (.number n)
  | .atom (.string s) => .ok (.string s)
  | .atom (.symbol s) => .ok (.symbol s)
  | .list l =>
    match sexprToValueList l with
    | .error e => .error e
    | .ok values => listToCons values
  | .dottedList l t =>
    match sexprToValue t with
    | .error e => .error e
    | .ok tv => sexprToValueRev l tv

/-- The element-wise conversion of a proper list (collect in order). -/
def sexprToValueList : List Sexpr → Except EvalError (List Value)
  | [] => .ok []
  | e :: rest =>
    match sexprToValue e with
    | .error er => .error er
    | .ok v =>
      match sexprToValueList rest with
      | .error er => .error er
      | .ok vs => .ok (v :: vs)

/-- The reversed try_fold of a dotted head: the rightmost element is
converted first and consed onto the accumulator. -/
def sexprToValueRev : List Sexpr → Value → Except EvalError Value
  | [], acc => .ok acc
  | e :: rest, acc =>
    match sexprToValueRev rest acc with
    | .error er => .error er
    | .ok acc2 =>
      match sexprToValue e with
      | .error er => .error er
      | .ok v => .ok (.cons v acc2)

end

/-- eval_quote from evaluator.rs: exactly one argument, converted without
evaluation. -/
def evalQuote (args : List Sexpr) : Except EvalError Value :=
  match args with
  | [a] => sexprToValue a
  | _ => .error (.arityError "1" args.length)

/-- eval_atom from evaluator.rs: symbols are looked up in the
environment. -/
def evalAtom (a : Atom) (env : Env) : Except EvalError Value :=
  match a with
  | .nil => .ok .nil
  | .number n => .ok (.number n)
  | .string s => .ok (.string s)
  | .symbol s =>
    match env.get s with
    | some v => .ok v
    | none => .error (.undefinedVariable s)

/-- The parameter extraction of eval_lambda: every parameter must be a
symbol. -/
def paramsOf : List Sexpr → Except EvalError (List String)
  | [] => .ok []
  | .atom (.symbol s) :: rest =>
    match paramsOf rest with
    | .error e => .error e
    | .ok ps => .ok (s :: ps)
  | _ :: _ => .error (.typeError "lambda parameters must be symbols")

/-- eval_lambda from evaluator.rs: at least two arguments, a parameter
list of symbols and a body; the closure stores a clone of the current
environment — a value snapshot at definition time. -/
def evalLambda (args : List Sexpr) (env : Env) : Except EvalError Value :=
  match args with
  | paramSpec :: b0 :: body =>
    match paramSpec with
    | .list pl =>
      match paramsOf pl with
      | .error e => .error e
      | .ok params => .ok (.lambda params (b0 :: body) env)
    | _ => .error (.typeError "lambda requires a parameter list")
  | _ => .error (.arityError "at least 2" args.length)

/-- The parameter-binding loop of apply: zip params with args, defining
each in order. -/
def bindParams (params : List String) (args : List Value) (env : Env) : Env :=
  match params, args with
  | p :: ps, a :: rest => bindParams ps rest (env.define p a)
  | _, _ => env

/-- builtin_cons from builtins.rs. -/
def builtinCons (args : List Value) : Except EvalError Value :=
  match args with
  | [a, b] => .ok (.cons a b)
  | _ => .error (.arityError "2" args.length)

/-- builtin_car from builtins.rs. -/
def builtinCar (args : List Value) : Except EvalError Value :=
  match args with
  | [.cons car _] => .ok car
  | [_] => .error (.typeError "car requires a cons cell")
  | _ => .error (.arityError "1" args.length)

/-- builtin_cdr from builtins.rs. -/
def builtinCdr (args : List Value) : Except EvalError Value :=
  match args with
  | [.cons _ cdr] => .ok cdr
  | [_] => .error (.typeError "cdr requires a cons cell")
  | _ => .error (.arityError "1" args.length)

/-- builtin_null from builtins.rs. -/
def builtinNull (args : List Value) : Except EvalError Value :=
  match args with
  | [.nil] => .ok (.bool true)
  | [_] => .ok (.bool false)
  | _ => .error (.arityError "1" args.length)

/-- builtin_equal from builtins.rs. -/
def builtinEqual (args : List Value) : Except EvalError Value :=
  match args with
  | [a, b] => .ok (.bool (valuesEqual a b))
  | _ => .error (.arityError "2" args.length)

/-- The traversal loop of builtin_assoc: a matching pair ends the search,
a non-pair element is skipped, Nil yields Nil, and an improper tail is a
type error. -/
def assocLoop (key : Value) : Value → Except EvalError Value
  | .nil => .ok .nil
  | .cons car cdr =>
    match car with
    | .cons pairKey pairVal =>
      if valuesEqual key pairKey then .ok (.cons pairKey pairVal)
      else assocLoop key cdr
    | _ => assocLoop key cdr
  | _ => .error (.typeError "assoc requires a proper list")

/-- builtin_assoc from builtins.rs. -/
def builtinAssoc (args : List Value) : Except EvalError Value :=
  match args with
  | [key, alist] => assocLoop key alist
  | _ => .error (.arityError "2" args.length)

/-- The row-extraction loop of builtin_group_by: the table must be a
proper list. -/
def valueRows : Value → Except EvalError (List Value)
  | .nil => .ok []
  | .cons car cdr =>
    match valueRows cdr with
    | .error e => .error e
    | .ok rest => .ok (car :: rest)
  | _ => .error (.typeError "group-by requires a proper list as table")

/-- groups.entry(key).or_default().push(row): append the row to its key
bucket, creating the bucket at the end on first sight.  HashMap iteration
order is unspecified in Rust; the model fixes first-insertion order. -/
def pushGroup : List (String × List Value) → String → Value →
    List (String × List Value)
  | [], key, row => [(key, [row])]
  | (k, rs) :: rest, key, row =>
    if k = key then (k, rs ++ [row]) :: rest
    else (k, rs) :: pushGroup rest key row

/-- All rows of a group list, in bucket order. -/
def groupRowsFlat : List (String × List Value) → List Value
  | [] => []
  | (_, rs) :: rest => rs ++ groupRowsFlat rest

/-- The result-building loop of builtin_group_by: each (key . group-list)
pair is prepended, so the alist is the reverse of iteration order. -/
def groupsToAlist (groups : List (String × List Value)) : Value :=
  groups.foldl
    (fun acc kg => .cons (.cons (.string kg.1) (valueListToCons kg.2)) acc)
    .nil

/-- create_global_env from builtins.rs: the seven builtins defined in
order. -/
def createGlobalEnv : Env :=
  (((((((Env.root []).define "cons" (.primitive .pcons)).define
    "car" (.primitive .pcar)).define
    "cdr" (.primitive .pcdr)).define
    "null?" (.primitive .pnull)).define
    "equal?" (.primitive .pequal)).define
    "assoc" (.primitive .passoc)).define
    "group-by" (.primitive .pgroupBy)

/-! ## The evaluator (evaluator.rs)

Rust's eval threads one mutable environment through evaluation; the model
passes it explicitly and returns the updated environment alongside the
value.  The recursion is fuelled: out reports fuel exhaustion (a model
artifact), err a real EvalError of the program. -/

/-- Result of a fuelled evaluation step. -/
inductive ERes (α : Type) where
  | ok (v : α) (env : Env)
  | err (e : EvalError)
  | out

/-- Lift a pure Except result into ERes with an unchanged environment. -/
def liftE {α : Type} (r : Except EvalError α) (env : Env) : ERes α :=
  match r with
  | .ok v => .ok v env
  | .error e => .err e

mutual

/-- eval from evaluator.rs. -/
def eval : Nat → Sexpr → Env → ERes Value
  | 0, _, _ => .out
  | _ + 1, .atom a, env => liftE (evalAtom a env) env
  | n + 1, .list l, env =>
    if l.isEmpty then .ok .nil env else evalList n l env
  | n + 1, .dottedList l t, env => evalDottedList n l t env

/-- eval_list from evaluator.rs: special forms are dispatched on a leading
symbol before application. -/
def evalList : Nat → List Sexpr → Env → ERes Value
  | 0, _, _ => .out
  | _ + 1, [], env => .ok .nil env
  | n + 1, head :: args, env =>
    match head with
    | .atom (.symbol name) =>
      if name = "quote" then liftE (evalQuote args) env
      else if name = "define" then evalDefine n args env
      else if name = "lambda" then liftE (evalLambda args env) env
      else if name = "if" then evalIf n args env
      else evalApplication n head args env
    | _ => evalApplication n head args env

/-- The application path of eval_list: evaluate the head, then the
arguments left to right, then apply. -/
def evalApplication : Nat → Sexpr → List Sexpr → Env → ERes Value
  | 0, _, _, _ => .out
  | n + 1, head, args, env =>
    match eval n head env with
    | .out => .out
    | .err e => .err e
    | .ok f env1 =>
      match evalArgs n args env1 with
      | .out => .out
      | .err e => .err e
      | .ok vs env2 => apply n f vs env2

/-- The argument loop of eval_list: left to right, threading the
environment. -/
def evalArgs : Nat → List Sexpr → Env → ERes (List Value)
  | 0, _, _ => .out
  | _ + 1, [], env => .ok [] env
  | n + 1, e :: rest, env =>
    match eval n e env with
    | .out => .out
    | .err er => .err er
    | .ok v env1 =>
      match evalArgs n rest env1 with
      | .out => .out
      | .err er => .err er
      | .ok vs env2 => .ok (v :: vs) env2

/-- eval_dotted_list from evaluator.rs: the tail first, then the head
expressions by the reversed try_fold. -/
def evalDottedList : Nat → List Sexpr → Sexpr → Env → ERes Value
  | 0, _, _, _ => .out
  | n + 1, l, t, env =>
    match eval n t env with
    | .out => .out
    | .err e => .err e
    | .ok tv env1 => evalRevFold n l tv env1

/-- The reversed try_fold of eval_dotted_list: the rightmost head
expression is evaluated first. -/
def evalRevFold : Nat → List Sexpr → Value → Env → ERes Value
  | 0, _, _, _ => .out
  | _ + 1, [], acc, env => .ok acc env
  | n + 1, e :: rest, acc, env =>
    match evalRevFold n rest acc env with
    | .out => .out
    | .err er => .err er
    | .ok acc2 env1 =>
      match eval n e env1 with
      | .out => .out
      | .err er => .err er
      | .ok v env2 => .ok (.cons v acc2) env2

/-- eval_define from evaluator.rs: exactly two arguments, a symbol target,
the value evaluated then bound in the current frame; the value is
returned. -/
def evalDefine : Nat → List Sexpr → Env → ERes Value
  | 0, _, _ => .out
  | n + 1, args, env =>
    match args with
    | [target, vexpr] =>
      match target with
      | .atom (.symbol s) =>
        match eval n vexpr env with
        | .out => .out
        | .err e => .err e
        | .ok v env1 => .ok v (env1.define s v)
      | _ => .err (.typeError "define requires a symbol as first argument")
    | _ => .err (.arityError "2" args.length)

/-- eval_if from evaluator.rs: exactly three arguments; the test is
evaluated, then exactly one branch by truthiness. -/
def evalIf : Nat → List Sexpr → Env → ERes Value
  | 0, _, _ => .out
  | n + 1, args, env =>
    match args with
    | [t, thenB, elseB] =>
      match eval n t env with
      | .out => .out
      | .err e => .err e
      | .ok tv env1 =>
        if isTruthy tv then eval n thenB env1 else eval n elseB env1
    | _ => .err (.arityError "3" args.length)

/-- apply from evaluator.rs: primitives run directly; a lambda checks
exact arity, binds parameters in a fresh child of its stored closure,
evaluates the body in sequence there, and leaves the caller environment
untouched. -/
def apply : Nat → Value → List Value → Env → ERes Value
  | 0, _, _, _ => .out
  | n + 1, f, args, env =>
    match f with
    | .primitive p => applyPrim n p args env
    | .lambda params body closure =>
      if params.length = args.length then
        match evalBody n body .nil (bindParams params args (.child [] closure)) with
        | .out => .out
        | .err e => .err e
        | .ok v _ => .ok v env
      else .err (.arityError (toString params.length) args.length)
    | _ => .err (.typeError ("Cannot apply non-function: " ++ displayValue f))

/-- The body loop of apply: evaluate each expression, returning the last
value (Nil for an empty body). -/
def evalBody : Nat → List Sexpr → Value → Env → ERes Value
  | 0, _, _, _ => .out
  | _ + 1, [], acc, env => .ok acc env
  | n + 1, e :: rest, _, env =>
    match eval n e env with
    | .out => .out
    | .err er => .err er
    | .ok v env1 => evalBody n rest v env1

/-- Dispatch of a primitive function value (builtins.rs). -/
def applyPrim : Nat → PrimFn → List Value → Env → ERes Value
  | 0, _, _, _ => .out
  | n + 1, p, args, env =>
    match p with
    | .pcons => liftE (builtinCons args) env
    | .pcar => liftE (builtinCar args) env
    | .pcdr => liftE (builtinCdr args) env
    | .pnull => liftE (builtinNull args) env
    | .pequal => liftE (builtinEqual args) env
    | .passoc => liftE (builtinAssoc args) env
    | .pgroupBy => builtinGroupBy n args env

/-- builtin_group_by from builtins.rs: exactly two arguments; the table
rows are extracted, grouped by the stringified key-function result, and
the groups are folded into an association list. -/
def builtinGroupBy : Nat → List Value → Env → ERes Value
  | 0, _, _ => .out
  | n + 1, args, env =>
    match args with
    | [table, keyFn] =>
      match valueRows table with
      | .error e => .err e
      | .ok rows =>
        match groupRows n keyFn rows [] env with
        | .out => .out
        | .err e => .err e
        | .ok groups env1 => .ok (groupsToAlist groups) env1
    | _ => .err (.arityError "2" args.length)

/-- The grouping loop of builtin_group_by: apply the key function to each
row in order and push the row into its bucket. -/
def groupRows : Nat → Value → List Value → List (String × List Value) →
    Env → ERes (List (String × List Value))
  | 0, _, _, _, _ => .out
  | _ + 1, _, [], groups, env => .ok groups env
  | n + 1, keyFn, row :: rest, groups, env =>
    match applyFunction n keyFn [row] env with
    | .out => .out
    | .err e => .err e
    | .ok kv env1 =>
      match valueToString kv with
      | .error e => .err e
      | .ok ks => groupRows n keyFn rest (pushGroup groups ks row) env1

/-- apply_function from builtins.rs: a duplicate of apply used by
group-by. -/
def applyFunction : Nat → Value → List Value → Env → ERes Value
  | 0, _, _, _ => .out
  | n + 1, f, args, env =>
    match f with
    | .primitive p => applyPrim n p args env
    | .lambda params body closure =>
      if params.length = args.length then
        match evalBody n body .nil (bindParams params args (.child [] closure)) with
        | .out => .out
        | .err e => .err e
        | .ok v _ => .ok v env
      else .err (.arityError (toString params.length) args.length)
    | _ => .err (.typeError ("Cannot apply non-function: " ++ displayValue f))

end

/-! ## Claims about the evaluator -/

/-- Claim C10: structural equality is not reflexive on function values:
whenever v and w are both function values — Primitive or Lambda, including
the very same value twice — the PartialEq instance, values_equal and the
equal? builtin all report inequality. -/
theorem claim_C10_functions_never_equal (v w : Value)
    (hv : isFunction v = true) (hw : isFunction w = true) :
    valuePartialEq v w = false ∧ valuesEqual v w = false ∧
    builtinEqual [v, w] = .ok (.bool false) := by
  have h2 : valuesEqual v w = false := by
    cases v <;> cases w <;> simp_all [isFunction, valuesEqual]
  have h1 : valuePartialEq v w = false := by
    cases v <;> cases w <;> simp_all [isFunction, valuePartialEq]
  exact ⟨h1, h2, by simp [builtinEqual, h2]⟩

/-- Witness for C10: the car primitive compared with itself. -/
theorem claim_C10_functions_never_equal_witness :
    valuePartialEq (.primitive .pcar) (.primitive .pcar) = false ∧
    valuesEqual (.primitive .pcar) (.primitive .pcar) = false ∧
    builtinEqual [.primitive .pcar, .primitive .pcar] = .ok (.bool false) :=
  claim_C10_functions_never_equal (.primitive .pcar) (.primitive .pcar) rfl rfl

/-- Claim C1 (amended): evaluating a lambda form yields a Lambda whose
closure is a value snapshot of the environment current at definition —
capture is by clone, not by shared reference, so a binding added to the
defining environment afterwards (including the lambda's own name for
recursion) is not visible when the lambda is applied; the counterexample
below exhibits the resulting undefined-variable error. -/
theorem claim_C1_lambda_snapshot {n : Nat} {pl : List Sexpr}
    {b0 : Sexpr} {body : List Sexpr} {env : Env} {names : List String}
    (hp : paramsOf pl = .ok names) :
    evalList (n + 1) (.atom (.symbol "lambda") :: .list pl :: b0 :: body) env =
      .ok (.lambda names (b0 :: body) env) env := by
  simp only [evalList, reduceIte]
  simp [evalLambda, liftE, hp]

/-- Witness for C1: the identity lambda captures the empty global
environment. -/
theorem claim_C1_lambda_snapshot_witness :
    evalList 3 [.atom (.symbol "lambda"), .list [.atom (.symbol "x")],
      .atom (.symbol "x")] (Env.root []) =
      .ok (.lambda ["x"] [.atom (.symbol "x")] (Env.root [])) (Env.root []) :=
  claim_C1_lambda_snapshot rfl

/-- Counterexample to C1 as written: define f as a lambda whose body reads
y, then define y at top level, then call f — under capture by shared
reference the call would see y and return 42, but the snapshot closure
taken at definition has no y and the call reports it undefined. -/
theorem claim_C1_counterexample :
    evalBody 20
      [ .list [.atom (.symbol "define"), .atom (.symbol "f"),
          .list [.atom (.symbol "lambda"),
            .list [.atom (.symbol "x")], .atom (.symbol "y")]],
        .list [.atom (.symbol "define"), .atom (.symbol "y"),
          .atom (.number 42)],
        .list [.atom (.symbol "f"), .atom (.number 1)] ]
      .nil (Env.root []) = .err (.undefinedVariable "y") := rfl

/-- Claim C8: an if form with exactly three arguments evaluates its test
and then exactly the branch selected by truthiness; every value except
Bool false and Nil is truthy — Number 0, the empty string and cons pairs
select the then branch; any other argument count is an arity error. -/
theorem claim_C8_if_semantics {n : Nat} {t a b : Sexpr} {env env1 : Env}
    {tv : Value} (args : List Sexpr)
    (ht : eval n t env = .ok tv env1) (harity : args.length ≠ 3) :
    (isTruthy tv = true →
      evalList (n + 1 + 1) [.atom (.symbol "if"), t, a, b] env =
        eval n a env1) ∧
    (isTruthy tv = false →
      evalList (n + 1 + 1) [.atom (.symbol "if"), t, a, b] env =
        eval n b env1) ∧
    evalList (n + 1 + 1) (.atom (.symbol "if") :: args) env =
      .err (.arityError "3" args.length) ∧
    (∀ v : Value, isTruthy v = false ↔ (v = .bool false ∨ v = .nil)) := by
  have hdisp : ∀ args2 : List Sexpr,
      evalList (n + 1 + 1) (.atom (.symbol "if") :: args2) env =
        evalIf (n + 1) args2 env := by
    intro args2
    simp only [evalList, reduceIte]
    simp
  refine ⟨?_, ?_, ?_, ?_⟩
  · intro htr
    rw [hdisp]
    simp only [evalIf, ht, htr, if_true]
  · intro hfa
    rw [hdisp]
    simp only [evalIf, ht, hfa, Bool.false_eq_true, if_false]
  · rw [hdisp]
    rcases args with _ | ⟨x1, _ | ⟨x2, _ | ⟨x3, _ | ⟨x4, rest⟩⟩⟩⟩
    · simp [evalIf]
    · simp [evalIf]
    · simp [evalIf]
    · exact absurd rfl harity
    · simp [evalIf]
  · intro v
    constructor
    · intro hf
      cases v with
      | nil => exact Or.inr rfl
      | bool b =>
        cases b with
        | false => exact Or.inl rfl
        | true => simp [isTruthy] at hf
      | number m => simp [isTruthy] at hf
      | string s => simp [isTruthy] at hf
      | symbol s => simp [isTruthy] at hf
      | cons c d => simp [isTruthy] at hf
      | primitive p => simp [isTruthy] at hf
      | lambda ps bd cl => simp [isTruthy] at hf
    · rintro (rfl | rfl) <;> rfl

/-- Witness for C8: Number 0 as the test is truthy, so the then branch is
returned. -/
theorem claim_C8_if_semantics_witness :
    evalList 5 [.atom (.symbol "if"), .atom (.number 0),
      .atom (.number 10), .atom (.number 20)] (Env.root []) =
      .ok (.number 10) (Env.root []) :=
  ((@claim_C8_if_semantics 3 (.atom (.number 0)) (.atom (.number 10))
      (.atom (.number 20)) (Env.root []) (Env.root []) (.number 0) []
      rfl (by decide)).1 rfl).trans rfl

/-- Claim C9: Environment set succeeds exactly when the name is bound in
the current frame — the update stores the new value and keeps the parent —
while a name bound only in an ancestor frame, or nowhere, yields an
undefined-variable error and no updated environment is produced. -/
theorem claim_C9_set_current_frame_only (env : Env) (name : String)
    (v : Value) :
    (lookupBindings env.bindings name ≠ none →
      Env.set env name v = .ok (env.define name v) ∧
      (env.define name v).get name = some v ∧
      (env.define name v).parent = env.parent) ∧
    (lookupBindings env.bindings name = none →
      Env.set env name v = .error (.undefinedVariable name)) := by
  cases env with
  | root b =>
    constructor
    · intro hne
      have hck : containsKey b name = true := by
        simp only [containsKey]
        cases hl : lookupBindings b name with
        | some w => rfl
        | none => exact absurd hl hne
      refine ⟨by simp [Env.set, hck, Env.define], ?_, rfl⟩
      simp [Env.define, Env.get, lookupBindings]
    · intro hnone
      have hnone2 : lookupBindings b name = none := hnone
      have hck : containsKey b name = false := by
        simp [containsKey, hnone2]
      simp [Env.set, hck]
  | child b p =>
    constructor
    · intro hne
      have hck : containsKey b name = true := by
        simp only [containsKey]
        cases hl : lookupBindings b name with
        | some w => rfl
        | none => exact absurd hl hne
      refine ⟨by simp [Env.set, hck, Env.define], ?_, rfl⟩
      simp [Env.define, Env.get, lookupBindings]
    · intro hnone
      have hnone2 : lookupBindings b name = none := hnone
      have hck : containsKey b name = false := by
        simp [containsKey, hnone2]
      simp [Env.set, hck]

/-- Witness for C9: a name bound only in the parent frame is rejected by
set even though get sees it; a name bound in the current frame is
updated. -/
theorem claim_C9_set_current_frame_only_witness :
    Env.get (.child [] (.root [("x", .number 1)])) "x" = some (.number 1) ∧
    Env.set (.child [] (.root [("x", .number 1)])) "x" (.number 2) =
      .error (.undefinedVariable "x") ∧
    Env.set (.root [("x", .number 1)]) "x" (.number 2) =
      .ok ((Env.root [("x", .number 1)]).define "x" (.number 2)) :=
  ⟨rfl,
   (claim_C9_set_current_frame_only (.child [] (.root [("x", .number 1)]))
     "x" (.number 2)).2 rfl,
   ((claim_C9_set_current_frame_only (.root [("x", .number 1)])
     "x" (.number 2)).1 (by simp [Env.bindings, lookupBindings])).1⟩

/-! ## Claim C2: assoc -/

/-- What assoc accepts as the match for a key: a pair whose car is
values_equal to it (the specification predicate for the first-match
clause). -/
def isMatchingPair (key : Value) : Value → Bool
  | .cons k _ => valuesEqual key k
  | _ => false

/-- A cons chain over the given elements ending in an arbitrary tail. -/
def consChain (elems : List Value) (tail : Value) : Value :=
  elems.foldr (fun v acc => .cons v acc) tail

/-- A non-matching element — pair or not — is skipped by the assoc
loop. -/
theorem assocLoop_skip {key e : Value} (c : Value)
    (h : isMatchingPair key e = false) :
    assocLoop key (.cons e c) = assocLoop key c := by
  cases e <;> simp_all [assocLoop, isMatchingPair]

/-- A matching pair ends the assoc loop with that pair. -/
theorem assocLoop_hit {key e : Value} (c : Value)
    (h : isMatchingPair key e = true) :
    assocLoop key (.cons e c) = .ok e := by
  cases e <;> simp_all [assocLoop, isMatchingPair]

/-- On a proper list the assoc loop returns the first matching pair, or
Nil. -/
theorem assocLoop_proper (key : Value) : ∀ elems : List Value,
    assocLoop key (valueListToCons elems) =
      .ok ((elems.find? (isMatchingPair key)).getD .nil) := by
  intro elems
  induction elems with
  | nil => rfl
  | cons e rest ih =>
    by_cases hm : isMatchingPair key e
    · rw [show valueListToCons (e :: rest) = .cons e (valueListToCons rest)
          from rfl, assocLoop_hit _ hm]
      simp [List.find?_cons_of_pos _ hm]
    · rw [show valueListToCons (e :: rest) = .cons e (valueListToCons rest)
          from rfl,
          assocLoop_skip _ (by simpa using hm), ih]
      simp [List.find?_cons_of_neg _ (by simpa using hm)]

/-- When no element matches and the chain ends in an improper tail, the
assoc loop reports the type error. -/
theorem assocLoop_improper (key : Value) : ∀ (elems : List Value) (tail : Value),
    (∀ t1 t2, tail ≠ .cons t1 t2) → tail ≠ .nil →
    (∀ e ∈ elems, isMatchingPair key e = false) →
    assocLoop key (consChain elems tail) =
      .error (.typeError "assoc requires a proper list") := by
  intro elems
  induction elems with
  | nil =>
    intro tail hc hn _
    rcases tail with _ | b | m | s | s | ⟨t1, t2⟩ | p | ⟨ps, bd, cl⟩
    · exact absurd rfl hn
    · rfl
    · rfl
    · rfl
    · rfl
    · exact absurd rfl (hc t1 t2)
    · rfl
    · rfl
  | cons e rest ih =>
    intro tail hc hn hall
    have h1 : isMatchingPair key e = false := hall e (by simp)
    rw [show consChain (e :: rest) tail = .cons e (consChain rest tail)
        from rfl, assocLoop_skip _ h1]
    exact ih tail hc hn (fun x hx => hall x (by simp [hx]))

/-- Claim C2 (amended): with exactly two arguments and a proper list,
assoc returns the first element that is a pair whose car is equal to the
key, else Nil — a non-pair element is skipped, not a type error, refuting
that part of the written claim — while the type error arises exactly when
the traversal reaches an improper (non-Nil, non-Cons) tail without having
found a match. -/
theorem claim_C2_assoc_behaviour (key : Value) (elems : List Value) :
    builtinAssoc [key, valueListToCons elems] =
      .ok ((elems.find? (isMatchingPair key)).getD .nil) ∧
    (∀ tail : Value, (∀ t1 t2, tail ≠ .cons t1 t2) → tail ≠ .nil →
      (∀ e ∈ elems, isMatchingPair key e = false) →
      builtinAssoc [key, consChain elems tail] =
        .error (.typeError "assoc requires a proper list")) := by
  constructor
  · exact assocLoop_proper key elems
  · intro tail hc hn hall
    exact assocLoop_improper key elems tail hc hn hall

/-- Witness for C2: a list whose first element is the bare number 42 is
searched past that element to the matching pair; a chain ending in the
number 7 is the type error. -/
theorem claim_C2_assoc_behaviour_witness :
    builtinAssoc [.symbol "a",
      valueListToCons [.number 42, .cons (.symbol "a") (.number 1)]] =
      .ok ((([.number 42, .cons (.symbol "a") (.number 1)] : List Value).find?
        (isMatchingPair (.symbol "a"))).getD .nil) ∧
    builtinAssoc [.symbol "b", consChain [.number 42] (.number 7)] =
      .error (.typeError "assoc requires a proper list") :=
  ⟨(claim_C2_assoc_behaviour (.symbol "a")
      [.number 42, .cons (.symbol "a") (.number 1)]).1,
   (claim_C2_assoc_behaviour (.symbol "b") [.number 42]).2 (.number 7)
      (fun t1 t2 h => Value.noConfusion h)
      (fun h => Value.noConfusion h)
      (fun e he => by simp at he; subst he; rfl)⟩

/-- Counterexample to C2 as written: a non-pair element in the searched
list is skipped rather than reported — assoc over the one-element list
holding the bare number 42 returns Ok Nil, not a type error. -/
theorem claim_C2_counterexample :
    builtinAssoc [.symbol "a", .cons (.number 42) .nil] = .ok .nil ∧
    (Except.ok Value.nil : Except EvalError Value) ≠
      .error (.typeError "assoc requires a proper list") :=
  ⟨rfl, fun h => Except.noConfusion h⟩

/-! ## Claim C5: group-by

A successful key application returns its value with the environment it was
given (no builtin writes the caller frame), which lets the grouping loop
be characterised against one fixed environment. -/

/-- A lifted pure result never changes the environment. -/
theorem liftE_ok_env {α : Type} {r : Except EvalError α} {env : Env}
    {v : α} {env2 : Env} (h : liftE r env = .ok v env2) : env2 = env := by
  cases r with
  | ok w =>
    simp only [liftE] at h
    injection h with h1 h2
    exact h2.symm
  | error e => simp [liftE] at h

/-- The primitive-application family preserves the caller environment:
none of the seven builtins, nor a lambda applied through apply_function,
writes the frame it was handed. -/
theorem groupby_env_preserved (n : Nat) :
    (∀ p args env v env2, applyPrim n p args env = .ok v env2 → env2 = env) ∧
    (∀ args env v env2, builtinGroupBy n args env = .ok v env2 → env2 = env) ∧
    (∀ keyFn rows groups env groups2 env2,
      groupRows n keyFn rows groups env = .ok groups2 env2 → env2 = env) ∧
    (∀ f args env v env2, applyFunction n f args env = .ok v env2 →
      env2 = env) := by
  induction n with
  | zero =>
    refine ⟨fun p args env v env2 h => ?_, fun args env v env2 h => ?_,
      fun keyFn rows groups env groups2 env2 h => ?_,
      fun f args env v env2 h => ?_⟩ <;>
      simp [applyPrim, builtinGroupBy, groupRows, applyFunction] at h
  | succ n ih =>
    obtain ⟨ihp, ihg, ihr, ihf⟩ := ih
    refine ⟨?_, ?_, ?_, ?_⟩
    · intro p args env v env2 h
      cases p with
      | pcons => exact liftE_ok_env (by simpa [applyPrim] using h)
      | pcar => exact liftE_ok_env (by simpa [applyPrim] using h)
      | pcdr => exact liftE_ok_env (by simpa [applyPrim] using h)
      | pnull => exact liftE_ok_env (by simpa [applyPrim] using h)
      | pequal => exact liftE_ok_env (by simpa [applyPrim] using h)
      | passoc => exact liftE_ok_env (by simpa [applyPrim] using h)
      | pgroupBy => exact ihg args env v env2 (by simpa [applyPrim] using h)
    · intro args env v env2 h
      rcases args with _ | ⟨table, _ | ⟨keyFn, _ | ⟨x, rest⟩⟩⟩
      · simp [builtinGroupBy] at h
      · simp [builtinGroupBy] at h
      · simp only [builtinGroupBy] at h
        cases hr : valueRows table with
        | error e => simp [hr] at h
        | ok rows =>
          simp only [hr] at h
          cases hg : groupRows n keyFn rows [] env with
          | out => simp [hg] at h
          | err e => simp [hg] at h
          | ok groups env1 =>
            simp only [hg] at h
            injection h with h1 h2
            exact h2.symm.trans (ihr keyFn rows [] env groups env1 hg)
      · simp [builtinGroupBy] at h
    · intro keyFn rows groups env groups2 env2 h
      cases rows with
      | nil =>
        simp only [groupRows] at h
        injection h with h1 h2
        exact h2.symm
      | cons row rest =>
        simp only [groupRows] at h
        cases ha : applyFunction n keyFn [row] env with
        | out => simp [ha] at h
        | err e => simp [ha] at h
        | ok kv env1 =>
          simp only [ha] at h
          cases hv : valueToString kv with
          | error e => simp [hv] at h
          | ok ks =>
            simp only [hv] at h
            have e1 : env1 = env := ihf keyFn [row] env kv env1 ha
            have e2 : env2 = env1 :=
              ihr keyFn rest (pushGroup groups ks row) env1 groups2 env2 h
            exact e2.trans e1
    · intro f args env v env2 h
      cases f with
      | nil => simp [applyFunction] at h
      | bool b => simp [applyFunction] at h
      | number m => simp [applyFunction] at h
      | string s => simp [applyFunction] at h
      | symbol s => simp [applyFunction] at h
      | cons c d => simp [applyFunction] at h
      | primitive p => exact ihp p args env v env2 (by simpa [applyFunction] using h)
      | lambda params body closure =>
        simp only [applyFunction] at h
        by_cases hl : params.length = args.length
        · rw [if_pos hl] at h
          cases hb : evalBody n body .nil
              (bindParams params args (.child [] closure)) with
          | out => simp [hb] at h
          | err e => simp [hb] at h
          | ok w env3 =>
            simp only [hb] at h
            injection h with h1 h2
            exact h2.symm
        · rw [if_neg hl] at h
          simp at h

/-- Pushing a row into its bucket adds exactly that row to the flattened
group contents, up to permutation. -/
theorem pushGroup_flat (k : String) (row : Value) :
    ∀ groups : List (String × List Value),
    (groupRowsFlat (pushGroup groups k row)).Perm
      (groupRowsFlat groups ++ [row]) := by
  intro groups
  induction groups with
  | nil => simp [pushGroup, groupRowsFlat]
  | cons g rest ih =>
    obtain ⟨k0, rs⟩ := g
    by_cases hk : k0 = k
    · rw [show pushGroup ((k0, rs) :: rest) k row = (k0, rs ++ [row]) :: rest
          from by simp [pushGroup, hk]]
      simp only [groupRowsFlat]
      simpa using List.Perm.append_left rs
        (@List.perm_append_comm Value [row] (groupRowsFlat rest))
    · rw [show pushGroup ((k0, rs) :: rest) k row =
            (k0, rs) :: pushGroup rest k row
          from by simp [pushGroup, hk]]
      simp only [groupRowsFlat]
      simpa using List.Perm.append_left rs ih

/-- Buckets remain in-order sublists when the processed prefix grows by
the pushed row. -/
theorem pushGroup_sublist (k : String) (row : Value) (done : List Value) :
    ∀ groups : List (String × List Value),
    (∀ kg ∈ groups, kg.2.Sublist done) →
    ∀ kg ∈ pushGroup groups k row, kg.2.Sublist (done ++ [row]) := by
  intro groups
  induction groups with
  | nil =>
    intro _ kg hkg
    simp only [pushGroup, List.mem_singleton] at hkg
    subst hkg
    exact List.sublist_append_right done [row]
  | cons g rest ih =>
    intro hsub kg hkg
    obtain ⟨k0, rs⟩ := g
    by_cases hk : k0 = k
    · rw [show pushGroup ((k0, rs) :: rest) k row = (k0, rs ++ [row]) :: rest
          from by simp [pushGroup, hk]] at hkg
      rcases List.mem_cons.mp hkg with rfl | hmem
      · exact List.Sublist.append (hsub (k0, rs) (by simp)) (List.Sublist.refl _)
      · exact (hsub kg (by simp [hmem])).trans (List.sublist_append_left done [row])
    · rw [show pushGroup ((k0, rs) :: rest) k row =
            (k0, rs) :: pushGroup rest k row
          from by simp [pushGroup, hk]] at hkg
      rcases List.mem_cons.mp hkg with rfl | hmem
      · exact (hsub (k0, rs) (by simp)).trans (List.sublist_append_left done [row])
      · exact ih (fun kg2 hkg2 => hsub kg2 (by simp [hkg2])) kg hmem

/-- A bucket property is preserved by a push whose row satisfies it at the
pushed key. -/
theorem pushGroup_keys {P : String → Value → Prop} (k : String) (row : Value)
    (hk : P k row) :
    ∀ groups : List (String × List Value),
    (∀ kg ∈ groups, ∀ r ∈ kg.2, P kg.1 r) →
    ∀ kg ∈ pushGroup groups k row, ∀ r ∈ kg.2, P kg.1 r := by
  intro groups
  induction groups with
  | nil =>
    intro _ kg hkg r hr
    simp only [pushGroup, List.mem_singleton] at hkg
    subst hkg
    simp only [List.mem_singleton] at hr
    subst hr
    exact hk
  | cons g rest ih =>
    intro hg kg hkg r hr
    obtain ⟨k0, rs⟩ := g
    by_cases hkk : k0 = k
    · subst hkk
      rw [show pushGroup ((k0, rs) :: rest) k0 row = (k0, rs ++ [row]) :: rest
          from by simp [pushGroup]] at hkg
      rcases List.mem_cons.mp hkg with rfl | hmem
      · rcases List.mem_append.mp hr with hr1 | hr1
        · exact hg (k0, rs) (by simp) r hr1
        · simp only [List.mem_singleton] at hr1
          subst hr1
          exact hk
      · exact hg kg (by simp [hmem]) r hr
    · rw [show pushGroup ((k0, rs) :: rest) k row =
            (k0, rs) :: pushGroup rest k row
          from by simp [pushGroup, hkk]] at hkg
      rcases List.mem_cons.mp hkg with rfl | hmem
      · exact hg (k0, rs) (by simp) r hr
      · exact ih (fun kg2 hkg2 r2 hr2 => hg kg2 (by simp [hkg2]) r2 hr2) kg hmem r hr

/-- The key of a row: at some fuel below the stated bound, the key
function applied to the row returns (with the environment unchanged) a
value whose string form is the group key. -/
def rowKeyIs (n : Nat) (keyFn : Value) (env : Env) (k : String)
    (row : Value) : Prop :=
  ∃ m kv, m < n ∧ applyFunction m keyFn [row] env = .ok kv env ∧
    valueToString kv = .ok k

/-- Invariant of the grouping loop: it permutes the processed rows into
the buckets, keeps every bucket an in-order sublist of the processed rows,
and tags every bucket with the key its rows map to. -/
theorem groupRows_inv : ∀ (n : Nat) (keyFn : Value) (rows : List Value)
    (groups : List (String × List Value)) (env : Env)
    (groups2 : List (String × List Value)) (env2 : Env),
    groupRows n keyFn rows groups env = .ok groups2 env2 →
    (groupRowsFlat groups2).Perm (groupRowsFlat groups ++ rows) ∧
    (∀ done : List Value, (∀ kg ∈ groups, kg.2.Sublist done) →
      ∀ kg ∈ groups2, kg.2.Sublist (done ++ rows)) ∧
    (∀ N, n ≤ N →
      (∀ kg ∈ groups, ∀ row ∈ kg.2, rowKeyIs N keyFn env kg.1 row) →
      ∀ kg ∈ groups2, ∀ row ∈ kg.2, rowKeyIs N keyFn env kg.1 row) := by
  intro n
  induction n with
  | zero =>
    intro keyFn rows groups env groups2 env2 h
    simp [groupRows] at h
  | succ n ih =>
    intro keyFn rows groups env groups2 env2 h
    cases rows with
    | nil =>
      simp only [groupRows] at h
      injection h with h1 h2
      subst h1
      refine ⟨by simp, fun done hs kg hkg => by simpa using hs kg hkg,
        fun N hN hk => hk⟩
    | cons row rest =>
      simp only [groupRows] at h
      cases ha : applyFunction n keyFn [row] env with
      | out => simp [ha] at h
      | err e => simp [ha] at h
      | ok kv env1 =>
        simp only [ha] at h
        cases hv : valueToString kv with
        | error e => simp [hv] at h
        | ok ks =>
          simp only [hv] at h
          have henv1 : env1 = env :=
            (groupby_env_preserved n).2.2.2 keyFn [row] env kv env1 ha
          rw [henv1] at h ha
          obtain ⟨hperm, hsub, hkey⟩ :=
            ih keyFn rest (pushGroup groups ks row) env groups2 env2 h
          refine ⟨?_, ?_, ?_⟩
          · refine hperm.trans ?_
            have hp := (pushGroup_flat ks row groups).append_right rest
            simpa using hp
          · intro done hdone kg hkg
            have h2 := hsub (done ++ [row])
              (pushGroup_sublist ks row done groups hdone) kg hkg
            simpa using h2
          · intro N hN hk
            refine hkey N (by omega) ?_
            refine pushGroup_keys ks row ?_ groups hk
            exact ⟨n, kv, by omega, ha, hv⟩

/-- Claim C5: for a table that is a proper list of rows and a key function
that succeeds on every row, group-by returns (leaving the environment
unchanged) an association list of (key-string . group-list) pairs whose
buckets together hold exactly the table rows — a permutation, so no row is
dropped or duplicated and the total count is the table length — where each
bucket preserves the rows' original relative order and every row of a
bucket maps to that bucket's key under the key function. -/
theorem claim_C5_group_by_partition {n : Nat} {table keyFn result : Value}
    {rows : List Value} {env env2 : Env}
    (hrows : valueRows table = .ok rows)
    (h : builtinGroupBy n [table, keyFn] env = .ok result env2) :
    env2 = env ∧
    ∃ groups : List (String × List Value),
      result = groupsToAlist groups ∧
      (groupRowsFlat groups).Perm rows ∧
      (groupRowsFlat groups).length = rows.length ∧
      (∀ kg ∈ groups, kg.2.Sublist rows) ∧
      (∀ kg ∈ groups, ∀ row ∈ kg.2, rowKeyIs n keyFn env kg.1 row) := by
  match n with
  | 0 => simp [builtinGroupBy] at h
  | n + 1 =>
    simp only [builtinGroupBy, hrows] at h
    cases hg : groupRows n keyFn rows [] env with
    | out => simp [hg] at h
    | err e => simp [hg] at h
    | ok groups env1 =>
      simp only [hg] at h
      injection h with h1 h2
      have henv : env1 = env :=
        (groupby_env_preserved n).2.2.1 keyFn rows [] env groups env1 hg
      obtain ⟨hperm, hsub, hkey⟩ :=
        groupRows_inv n keyFn rows [] env groups env1 hg
      have hperm2 : (groupRowsFlat groups).Perm rows := by
        simpa [groupRowsFlat] using hperm
      refine ⟨h2.symm.trans henv, groups, h1.symm, hperm2, hperm2.length_eq,
        ?_, ?_⟩
      · intro kg hkg
        have := hsub [] (fun kg2 hkg2 => absurd hkg2 (List.not_mem_nil kg2))
          kg hkg
        simpa using this
      · exact hkey (n + 1) (by omega)
          (fun kg2 hkg2 => absurd hkg2 (List.not_mem_nil kg2))

/-- Witness for C5: a three-row table grouped by car — two rows keyed a,
one keyed b. -/
theorem claim_C5_group_by_partition_witness :
    (Env.root [] : Env) = .root [] ∧
    ∃ groups : List (String × List Value),
      groupsToAlist
          [("a", [Value.cons (.symbol "a") (.number 1),
                  Value.cons (.symbol "a") (.number 3)]),
           ("b", [Value.cons (.symbol "b") (.number 2)])] =
        groupsToAlist groups ∧
      (groupRowsFlat groups).Perm
        [Value.cons (.symbol "a") (.number 1),
         Value.cons (.symbol "b") (.number 2),
         Value.cons (.symbol "a") (.number 3)] ∧
      (groupRowsFlat groups).length =
        ([Value.cons (.symbol "a") (.number 1),
          Value.cons (.symbol "b") (.number 2),
          Value.cons (.symbol "a") (.number 3)] : List Value).length ∧
      (∀ kg ∈ groups, kg.2.Sublist
        [Value.cons (.symbol "a") (.number 1),
         Value.cons (.symbol "b") (.number 2),
         Value.cons (.symbol "a") (.number 3)]) ∧
      (∀ kg ∈ groups, ∀ row ∈ kg.2,
        rowKeyIs 11 (.primitive .pcar) (.root []) kg.1 row) :=
  @claim_C5_group_by_partition 11
    (valueListToCons
      [Value.cons (.symbol "a") (.number 1),
       Value.cons (.symbol "b") (.number 2),
       Value.cons (.symbol "a") (.number 3)])
    (.primitive .pcar)
    (groupsToAlist
      [("a", [Value.cons (.symbol "a") (.number 1),
              Value.cons (.symbol "a") (.number 3)]),
       ("b", [Value.cons (.symbol "b") (.number 2)])])
    [Value.cons (.symbol "a") (.number 1),
     Value.cons (.symbol "b") (.number 2),
     Value.cons (.symbol "a") (.number 3)]
    (.root []) (.root []) rfl rfl
